import Mathlib

/-!
# Happiness parallel-coordinates chart: a verification development

Shallow embedding of the pure parts of

* `src/components/ParallelCoordinates.jsx` (axis statistics, the normalized
  0-10 mapping, the polyline drawing loop, the drag-release reordering),
* `src/components/RegionFilter.jsx` (`toggle`),
* `src/App.jsx` (`filtered`),
* `src/data/LoadHappiness.js` (`norm`, `pickFlex`, `pickNumFlex`,
  `getRegionMap2015`, the row callback of `loadHappinessYear`).

Conventions of the embedding.

* A JavaScript number is a `JSNum`: a finite value carried as an exact
  rational, `NaN`, or a signed infinity.  An arithmetic result is exact while
  its magnitude stays below the overflow threshold of binary64 and is an
  infinity from there on; rounding below the threshold is not modelled, and
  `-0` is identified with `0`.
* A JavaScript object with string keys is an association list in
  `Object.keys` order; a `Map` is an association list in insertion order.
* A `Set` of strings is a `Finset String`.
* Library calls (`d3.extent`, `Array.prototype.sort`, `String.prototype.trim`,
  unary `+` on a string, the canvas path API) are embedded from their
  published semantics; the d3 scales, whose pixel output no statement below
  depends on, are parameters.
-/

namespace Happiness

/-! ## JavaScript values -/

/-- A JavaScript number: finite (exact rational), `NaN`, or `±Infinity`. -/
inductive JSNum where
  | fin (q : ℚ)
  | nan
  | inf (negative : Bool)
  deriving DecidableEq

/-- The JavaScript values a loaded row can hold under a key. -/
inductive JSVal where
  | num (n : JSNum)
  | str (s : String)
  | undefined
  deriving DecidableEq

/-- The test `Number.isFinite(v)`: true exactly for finite numbers (no coercion). -/
def Number.isFinite : JSVal → Bool
  | .num (.fin _) => true
  | _ => false

/-- The finite number held by a value, when `Number.isFinite` accepts it. -/
def JSVal.finite? : JSVal → Option ℚ
  | .num (.fin q) => some q
  | _ => none

/-- The least magnitude that rounds to an infinity: `2^1024 - 2^970`, half way
between the largest finite double and `2^1024`. -/
def overflowThreshold : Nat :=
  179769313486231580793728971405303415079934132710037826936173778980444968292764750946649017977587207096330286416692887910946555547851940402630657488671505820681908902000708383676273854845817711531764475730270069855571366959622842914819860834936475292719074168444365510704342711559699508093042880177904174497792

/-- The number an exact result becomes: itself while its magnitude is below
`overflowThreshold`, else the infinity of its sign. -/
def JSNum.ofExact (q : ℚ) : JSNum :=
  if (overflowThreshold : ℚ) ≤ |q| then .inf (decide (q < 0)) else .fin q

/-- The operator `a - b` on numbers. -/
def JSNum.sub : JSNum → JSNum → JSNum
  | .fin a, .fin b => JSNum.ofExact (a - b)
  | .fin _, .inf s => .inf (!s)
  | .inf s, .fin _ => .inf s
  | .inf s, .inf t => if s = t then .nan else .inf s
  | _, _ => .nan

/-- The operator `a / b` on numbers (a zero divisor is taken as `+0`). -/
def JSNum.div : JSNum → JSNum → JSNum
  | .fin a, .fin b =>
    if b = 0 then (if a = 0 then .nan else .inf (decide (a < 0)))
    else JSNum.ofExact (a / b)
  | .fin _, .inf _ => .fin 0
  | .inf s, .fin b => .inf (s != decide (b < 0))
  | .inf _, .inf _ => .nan
  | _, _ => .nan

/-- The operator `a * b` on numbers. -/
def JSNum.mul : JSNum → JSNum → JSNum
  | .fin a, .fin b => JSNum.ofExact (a * b)
  | .fin a, .inf s => if a = 0 then .nan else .inf (s != decide (a < 0))
  | .inf s, .fin b => if b = 0 then .nan else .inf (s != decide (b < 0))
  | .inf s, .inf t => .inf (s != t)
  | _, _ => .nan

/-- The operator `a || b` on numbers: `0` and `NaN` are falsy. -/
def JSNum.or (a b : JSNum) : JSNum :=
  match a with
  | .fin q => if q = 0 then b else .fin q
  | .nan => b
  | .inf s => .inf s

/-- The function `Math.min(a, b)`: `NaN` when either argument is. -/
def Math.min : JSNum → JSNum → JSNum
  | .nan, _ => .nan
  | _, .nan => .nan
  | .inf true, _ => .inf true
  | _, .inf true => .inf true
  | .inf false, b => b
  | a, .inf false => a
  | .fin a, .fin b => .fin (if a ≤ b then a else b)

/-- The function `Math.max(a, b)`: `NaN` when either argument is. -/
def Math.max : JSNum → JSNum → JSNum
  | .nan, _ => .nan
  | _, .nan => .nan
  | .inf false, _ => .inf false
  | _, .inf false => .inf false
  | .inf true, b => b
  | a, .inf true => a
  | .fin a, .fin b => .fin (if a ≤ b then b else a)

/-! ## Objects with string keys -/

/-- Property read `obj[k]` on an association list of own properties (`none` is `undefined`). -/
def objGet {α : Type} (obj : List (String × α)) (k : String) : Option α :=
  match obj with
  | [] => none
  | (k', v) :: rest => if k' = k then some v else objGet rest k

/-- Property write `obj[k] = v`: overwrite an existing property in place, else append it. -/
def objSet {α : Type} (obj : List (String × α)) (k : String) (v : α) : List (String × α) :=
  match obj with
  | [] => [(k, v)]
  | (k', v') :: rest => if k' = k then (k', v) :: rest else (k', v') :: objSet rest k v

/-! ## Rows as produced by the loader -/

/-- One loaded survey row (the object literal returned by the row callback of
`loadHappinessYear`). -/
structure HRow where
  country : String
  region : String
  score : JSNum
  gdp : JSNum
  social : JSNum
  life : JSNum
  freedom : JSNum
  generosity : JSNum
  corruption : JSNum
  deriving DecidableEq

/-- Property access `row[k]` on a loaded row. -/
def HRow.get (r : HRow) (k : String) : JSVal :=
  if k = "country" then .str r.country
  else if k = "region" then .str r.region
  else if k = "score" then .num r.score
  else if k = "gdp" then .num r.gdp
  else if k = "social" then .num r.social
  else if k = "life" then .num r.life
  else if k = "freedom" then .num r.freedom
  else if k = "generosity" then .num r.generosity
  else if k = "corruption" then .num r.corruption
  else .undefined

/-- An axis descriptor `{ key, label }`. -/
structure AxisDescriptor where
  key : String
  label : String
  deriving DecidableEq

/-- The seven descriptors built in `App.jsx` (labels from `AXIS_LABELS`). -/
def appDims : List AxisDescriptor :=
  [ ⟨"score", "Happiness score"⟩,
    ⟨"generosity", "Generosity"⟩,
    ⟨"gdp", "GDP per capita"⟩,
    ⟨"social", "Social support"⟩,
    ⟨"life", "Healthy life expectancy"⟩,
    ⟨"freedom", "Freedom of choice"⟩,
    ⟨"corruption", "Perceived corruption"⟩ ]

/-! ## `stats` (ParallelCoordinates.jsx, lines 18-27) -/

/-- Per-axis statistics `{ min, max }`. -/
structure Stat where
  min : ℚ
  max : ℚ
  deriving DecidableEq

/-- One iteration of the loop of `d3.extent` (no accessor) on a number that is
not `NaN`: the first value sets both ends (`value >= value` holds), later ones
lower `min` when `min > value` and raise `max` when `max < value`. -/
def extentStep (acc : Option (ℚ × ℚ)) (value : ℚ) : Option (ℚ × ℚ) :=
  match acc with
  | none => some (value, value)
  | some (mn, mx) =>
    some (if mn > value then value else mn, if mx < value then value else mx)

/-- The call `d3.extent(values)`; `none` is the result `[undefined, undefined]`. -/
def extent (values : List ℚ) : Option (ℚ × ℚ) :=
  values.foldl extentStep none

/-- The list `data.map(r => r[key]).filter(v => Number.isFinite(v))`, each survivor
carried as the finite number it is. -/
def finiteVals (data : List HRow) (key : String) : List ℚ :=
  (data.map (fun r => r.get key)).filterMap JSVal.finite?

/-- The entry stored under `d.key`: the extent of the finite values, or
`{ min: 0, max: 1 }` when `min`/`max` are not finite (no finite value). -/
def statEntry (data : List HRow) (key : String) : Stat :=
  match extent (finiteVals data key) with
  | some (mn, mx) => ⟨mn, mx⟩
  | none => ⟨0, 1⟩

/-- The `stats` object: `dims.forEach(d => s[d.key] = ...)`. -/
def stats (data : List HRow) (dims : List AxisDescriptor) : List (String × Stat) :=
  dims.foldl (fun s d => objSet s d.key (statEntry data d.key)) []

/-! ## `yPos` (ParallelCoordinates.jsx, lines 59-75) -/

/-- The `norm` prop: `'raw'` or `'ten'`. -/
inductive DisplayMode where
  | raw
  | ten
  deriving DecidableEq

/-- The value `clamped * 10` that `yPos` passes to `yUnit10` in `'ten'` mode:
`t = (v - min) / (max - min || 1)`, `clamped = Math.max(0, Math.min(1, t))`. -/
def unit10 (st : Stat) (v : ℚ) : JSNum :=
  let t := JSNum.div (JSNum.sub (.fin v) (.fin st.min))
    (JSNum.or (JSNum.sub (.fin st.max) (.fin st.min)) (.fin 1))
  let clamped := Math.max (.fin 0) (Math.min (.fin 1) t)
  JSNum.mul clamped (.fin 10)

/-- The domain handed to `d3.scaleLinear().domain([min, max])` for `yRaw[k]`:
`stats[k] || { min: 0, max: 1 }`. -/
def rawDomain (st : List (String × Stat)) (k : String) : Stat :=
  match objGet st k with
  | some s => s
  | none => ⟨0, 1⟩

/-- The function `yPos(k, v)` for a finite `v`.  `scaleNice dom v` stands for the d3 scale
`scaleLinear().domain([dom.min, dom.max]).nice().range(..)` applied to `v`, and
`yUnit10` for the shared `[0,10]` scale.  `none` is the `TypeError` raised by
destructuring `stats[k]` when `k` has no entry. -/
def yPos (mode : DisplayMode) (scaleNice : Stat → ℚ → JSNum) (yUnit10 : JSNum → JSNum)
    (st : List (String × Stat)) (k : String) (v : ℚ) : Option JSNum :=
  match mode with
  | .raw => some (scaleNice (rawDomain st k) v)
  | .ten =>
    match objGet st k with
    | none => none
    | some s => some (yUnit10 (unit10 s v))

/-! ## Axis layout and drag-release reordering (ParallelCoordinates.jsx, lines 40-57, 114-131) -/

/-- The domain of a d3 ordinal scale: the given keys, first occurrences only. -/
def ordinalDomain : List String → List String → List String
  | [], acc => acc
  | k :: ks, acc => if k ∈ acc then ordinalDomain ks acc else ordinalDomain ks (acc ++ [k])

/-- Index of a key in a domain (the length when absent). -/
def domainIndex (k : String) : List String → Nat
  | [] => 0
  | d :: ds => if d = k then 0 else domainIndex k ds + 1

/-- The layout scale `x = d3.scalePoint().domain(order).range([margin.left,
width - margin.right])` with `margin.left = 70`, `margin.right = 30` (and
`width ≥ 900`, so the range is increasing): `n` points, `step = (stop - start)
/ max(1, n - 1)`, the single point of a one-key domain centred.  d3 returns
`undefined` outside the domain; every call site passes a key of `order`. -/
def xScale (order : List String) (width : ℚ) (k : String) : ℚ :=
  let dom := ordinalDomain order []
  let n : ℚ := dom.length
  let start : ℚ := 70
  let stop : ℚ := width - 30
  let step := (stop - start) / max 1 (n - 1)
  let start' := start + (stop - start - step * (n - 1)) * (1 / 2)
  start' + step * (domainIndex k dom : ℚ)

/-- The function `getX(k, x) = pos[k] ?? x(k)`: the transient drag position when the axis
has one, else its layout position. -/
def getX (pos : List (String × ℚ)) (x : String → ℚ) (k : String) : ℚ :=
  match objGet pos k with
  | some p => p
  | none => x k

/-- The drag `start` handler: `pos[k] = x(k)`. -/
def dragStart (pos : List (String × ℚ)) (x : String → ℚ) (k : String) : List (String × ℚ) :=
  objSet pos k (x k)

/-- The drag `drag` handler: `pos[k] = Math.max(margin.left,
Math.min(width - margin.right, event.x))`. -/
def dragMove (pos : List (String × ℚ)) (width : ℚ) (k : String) (eventX : ℚ) :
    List (String × ℚ) :=
  objSet pos k (max 70 (min (width - 30) eventX))

/-- Insertion step of the stable sort: `a` goes before the first `b` with
`cmp(a, b) <= 0`. -/
def sortInsert {α : Type} (cmp : α → α → ℚ) (a : α) : List α → List α
  | [] => [a]
  | b :: l => if cmp a b ≤ 0 then a :: b :: l else b :: sortInsert cmp a l

/-- The method `Array.prototype.sort(cmp)` for a comparator returning finite numbers.
ECMAScript requires the sort to be stable; for a consistent comparator (here a
difference of two numbers) the result is then determined, and it is computed
here by a stable insertion sort. -/
def arraySort {α : Type} (cmp : α → α → ℚ) : List α → List α
  | [] => []
  | a :: l => sortInsert cmp a (arraySort cmp l)

/-- The drag `end` handler: `newOrder = order.slice().sort((a, b) =>
(pos[a] ?? x(a)) - (pos[b] ?? x(b)))`, the value given to `setOrder`. -/
def dragEnd (order : List String) (pos : List (String × ℚ)) (width : ℚ) : List String :=
  let x := xScale order width
  arraySort (fun a b => getX pos x a - getX pos x b) order

/-! ## `drawLines` (ParallelCoordinates.jsx, lines 134-162) -/

/-- The canvas calls of `drawLines` that touch the path or the bitmap (the
style assignments are left out). -/
inductive CanvasOp where
  | clearRect
  | beginPath
  | moveTo (x y : ℚ)
  | lineTo (x y : ℚ)
  | stroke
  deriving DecidableEq

/-- The inner loop `for (const k of order)` of `drawLines` for one row, from a
given value of `first`: the final value of `invalid` and the `moveTo`/`lineTo`
calls issued.  `none`: `yPos` raised. -/
def pathOps (gx : String → ℚ) (yp : String → ℚ → Option JSNum) (row : HRow) :
    List String → Bool → Option (Bool × List CanvasOp)
  | [], _ => some (false, [])
  | k :: ks, first =>
    match (row.get k).finite? with
    | none => some (true, [])
    | some v =>
      match yp k v with
      | none => none
      | some (.fin y) =>
        match pathOps gx yp row ks false with
        | none => none
        | some (invalid, ops) =>
          some (invalid, (if first then CanvasOp.moveTo (gx k) y else CanvasOp.lineTo (gx k) y) :: ops)
      | some _ => some (true, [])

/-- The body of `for (const row of data)`: `beginPath`, the inner loop, and
`stroke` unless `invalid`. -/
def rowOps (gx : String → ℚ) (yp : String → ℚ → Option JSNum) (order : List String)
    (row : HRow) : Option (List CanvasOp) :=
  match pathOps gx yp row order true with
  | none => none
  | some (invalid, ops) =>
    some (CanvasOp.beginPath :: ops ++ (if invalid then [] else [CanvasOp.stroke]))

/-- The loop `for (const row of data)`. -/
def drawRows (gx : String → ℚ) (yp : String → ℚ → Option JSNum) (order : List String) :
    List HRow → Option (List CanvasOp)
  | [] => some []
  | row :: rest =>
    match rowOps gx yp order row with
    | none => none
    | some ops =>
      match drawRows gx yp order rest with
      | none => none
      | some more => some (ops ++ more)

/-- The canvas calls of `drawLines`: `clearRect`, then the rows. -/
def drawLines (gx : String → ℚ) (yp : String → ℚ → Option JSNum) (order : List String)
    (data : List HRow) : Option (List CanvasOp) :=
  match drawRows gx yp order data with
  | none => none
  | some ops => some (CanvasOp.clearRect :: ops)

/-- A point in canvas coordinates. -/
abbrev Pt := ℚ × ℚ

/-- Canvas state: the subpaths of the current path (newest first, each with
its points newest first), and, for every `stroke()` since the last clear, the
line segments it painted. -/
structure Canvas where
  path : List (List Pt)
  strokes : List (List (Pt × Pt))

/-- The segments joining consecutive points. -/
def segments (pts : List Pt) : List (Pt × Pt) :=
  pts.zip pts.tail

/-- The segments of a whole path, in drawing order. -/
def pathSegments (path : List (List Pt)) : List (Pt × Pt) :=
  (path.reverse.map (fun sub => segments sub.reverse)).flatten

/-- Effect of one canvas call (HTML canvas path semantics). -/
def Canvas.step (c : Canvas) : CanvasOp → Canvas
  | .clearRect => { c with strokes := [] }
  | .beginPath => { c with path := [] }
  | .moveTo x y => { c with path := [(x, y)] :: c.path }
  | .lineTo x y =>
    match c.path with
    | [] => { c with path := [[(x, y)]] }
    | sub :: rest => { c with path := ((x, y) :: sub) :: rest }
  | .stroke => { c with strokes := c.strokes ++ [pathSegments c.path] }

/-- Effect of a sequence of canvas calls. -/
def Canvas.run (c : Canvas) (ops : List CanvasOp) : Canvas :=
  ops.foldl Canvas.step c

/-- The point of a row on axis `k`, when the value and its vertical position
are both finite. -/
def axisPoint (gx : String → ℚ) (yp : String → ℚ → Option JSNum) (row : HRow)
    (k : String) : Option Pt :=
  match (row.get k).finite? with
  | none => none
  | some v =>
    match yp k v with
    | some (.fin y) => some (gx k, y)
    | _ => none

/-- A row is drawable when it has a point on every axis of the order. -/
def drawable (gx : String → ℚ) (yp : String → ℚ → Option JSNum) (order : List String)
    (row : HRow) : Bool :=
  order.all (fun k => (axisPoint gx yp row k).isSome)

/-- The polyline of a row: its points along the axis order. -/
def polyline (gx : String → ℚ) (yp : String → ℚ → Option JSNum) (order : List String)
    (row : HRow) : List Pt :=
  order.filterMap (axisPoint gx yp row)

/-! ## `toggle` (RegionFilter.jsx, lines 10-17) and `filtered` (App.jsx, lines 39-44) -/

/-- The sentinel `ALL = 'World'`. -/
def ALL : String := "World"

/-- The set passed to `onChange` by `toggle(r)`. -/
def toggle (selected : Finset String) (r : String) : Finset String :=
  if r = ALL then {ALL}
  else
    let next := selected
    let next := next.erase ALL
    let next := if r ∈ next then next.erase r else insert r next
    let next := if next.card = 0 then insert ALL next else next
    next

/-- The rows given to the chart: all of them when `'World'` is selected, else
`data.filter(d => allow.has(d.region))`. -/
def filtered (data : List HRow) (selected : Finset String) : List HRow :=
  if "World" ∈ selected then data
  else
    let allow := selected
    data.filter (fun d => decide (d.region ∈ allow))

/-! ## Column resolution (LoadHappiness.js, lines 15-59) -/

/-- A raw CSV row as parsed by `d3.csv`: its own string-valued properties in
`Object.keys` order (one per column, keys distinct). -/
abbrev CsvRow := List (String × String)

/-- The alias table: `COLS.country`. -/
def COLS.country : List String := ["Country or region", "Country name", "Country"]

/-- The alias table: `COLS.region`. -/
def COLS.region : List String := ["Region"]

/-- The alias table: `COLS.score`. -/
def COLS.score : List String :=
  ["Score", "Happiness Score", "Ladder score", "Happiness.Score"]

/-- The alias table: `COLS.gdp`. -/
def COLS.gdp : List String :=
  ["GDP per capita", "Economy (GDP per Capita)", "Log GDP per capita",
   "Economy..GDP.per.Capita."]

/-- The alias table: `COLS.social`. -/
def COLS.social : List String := ["Social support", "Family"]

/-- The alias table: `COLS.life`. -/
def COLS.life : List String :=
  ["Healthy life expectancy", "Health (Life Expectancy)", "Health..Life.Expectancy."]

/-- The alias table: `COLS.freedom`. -/
def COLS.freedom : List String := ["Freedom to make life choices", "Freedom"]

/-- The alias table: `COLS.generosity`. -/
def COLS.generosity : List String := ["Generosity"]

/-- The alias table: `COLS.corruption`. -/
def COLS.corruption : List String :=
  ["Perceptions of corruption", "Trust (Government Corruption)", "Corruption",
   "Trust..Government.Corruption."]

/-- What one character contributes to `s.toLowerCase().replace(/[^a-z]/g, '')`:
an ASCII letter contributes its lower case; the two other characters whose
Unicode lower-casing contains an ASCII letter are U+212A (Kelvin sign, to `k`)
and U+0130 (dotted capital I, to `i` followed by a combining dot); every other
character is removed. -/
def normChar (c : Char) : Option Char :=
  if 65 ≤ c.toNat ∧ c.toNat ≤ 90 then some (Char.ofNat (c.toNat + 32))
  else if 97 ≤ c.toNat ∧ c.toNat ≤ 122 then some c
  else if c.toNat = 0x212A then some 'k'
  else if c.toNat = 0x0130 then some 'i'
  else none

/-- The header normalizer `norm = s => s.toLowerCase().replace(/[^a-z]/g, '')`. -/
def norm (s : String) : String :=
  String.mk (s.data.filterMap normChar)

/-- The first loop of `pickFlex` (exact headers): the value of the first
candidate `c` with `row[c] != null && row[c] !== ''`.  Only own properties of
the row are consulted: candidates are column headers, not names of members of
`Object.prototype`. -/
def pickExact (row : CsvRow) : List String → Option String
  | [] => none
  | c :: cs =>
    match objGet row c with
    | some v => if v ≠ "" then some v else pickExact row cs
    | none => pickExact row cs

/-- The map `new Map(Object.keys(row).map(k => [norm(k), k]))`: entries are set
in key order, a later header replacing an earlier one of the same normalized
name. -/
def normMap (row : CsvRow) : List (String × String) :=
  (row.map (fun p => (norm p.1, p.1))).foldl (fun m e => objSet m e.1 e.2) []

/-- The second loop of `pickFlex` (normalized fallback): for the first
candidate `c` with `k = map.get(norm(c))` truthy (present, not the empty
header) and `row[k] !== ''`, the value `row[k]`.  The header `k` is an own key
of the row, so `row[k]` is a string. -/
def pickNorm (row : CsvRow) (map : List (String × String)) : List String → Option String
  | [] => none
  | c :: cs =>
    match objGet map (norm c) with
    | some k =>
      if k ≠ "" then
        match objGet row k with
        | some v => if v ≠ "" then some v else pickNorm row map cs
        | none => pickNorm row map cs
      else pickNorm row map cs
    | none => pickNorm row map cs

/-- The function `pickFlex(row, candidates)`. -/
def pickFlex (row : CsvRow) (candidates : List String) : String :=
  match pickExact row candidates with
  | some v => v
  | none =>
    match pickNorm row (normMap row) candidates with
    | some v => v
    | none => ""

/-! ## Unary plus on a string (ECMAScript `StringToNumber`) -/

/-- White space and line terminators, as skipped by `StringToNumber` and
removed by `String.prototype.trim`. -/
def isStrWhiteSpace (c : Char) : Bool :=
  let n := c.toNat
  n = 0x9 || n = 0xA || n = 0xB || n = 0xC || n = 0xD || n = 0x20 || n = 0xA0
    || n = 0x1680 || (0x2000 ≤ n && n ≤ 0x200A) || n = 0x2028 || n = 0x2029
    || n = 0x202F || n = 0x205F || n = 0x3000 || n = 0xFEFF

/-- Characters with leading and trailing white space removed. -/
def trimChars (cs : List Char) : List Char :=
  ((cs.dropWhile isStrWhiteSpace).reverse.dropWhile isStrWhiteSpace).reverse

/-- The method `String.prototype.trim`. -/
def jsTrim (s : String) : String :=
  String.mk (trimChars s.data)

/-- Value of a digit in a base up to 16. -/
def digitOf (base : Nat) (c : Char) : Option Nat :=
  let n := c.toNat
  let d :=
    if 48 ≤ n ∧ n ≤ 57 then n - 48
    else if 97 ≤ n ∧ n ≤ 102 then n - 87
    else if 65 ≤ n ∧ n ≤ 70 then n - 55
    else 16
  if d < base then some d else none

/-- The longest leading run of digits of the base: its digit count, its value
(continuing from `acc`), and the rest. -/
def takeDigits (base : Nat) : List Char → Nat → Nat → Nat × Nat × List Char
  | [], count, acc => (count, acc, [])
  | c :: cs, count, acc =>
    match digitOf base c with
    | some d => takeDigits base cs (count + 1) (base * acc + d)
    | none => (count, acc, c :: cs)

/-- The grammar `ExponentPart_opt` followed by the end of the text: the
exponent. -/
def parseExponent (cs : List Char) : Option Int :=
  match cs with
  | [] => some 0
  | e :: rest =>
    if e = 'e' ∨ e = 'E' then
      let (negative, digits) :=
        match rest with
        | '+' :: r => (false, r)
        | '-' :: r => (true, r)
        | r => (false, r)
      match takeDigits 10 digits 0 0 with
      | (count, n, []) =>
        if count = 0 then none else some (if negative then -(n : Int) else (n : Int))
      | _ => none
    else none

/-- The grammar `StrUnsignedDecimalLiteral` other than `Infinity`, to the end
of the text: mantissa `m` and decimal exponent `e`, the value being
`m * 10^e`. -/
def parseUnsignedDecimal (cs : List Char) : Option (Nat × Int) :=
  match takeDigits 10 cs 0 0 with
  | (ni, i, '.' :: rest) =>
    match takeDigits 10 rest 0 i with
    | (nf, m, rest') =>
      if ni = 0 ∧ nf = 0 then none
      else
        match parseExponent rest' with
        | some e => some (m, e - (nf : Int))
        | none => none
  | (ni, i, rest) =>
    if ni = 0 then none
    else
      match parseExponent rest with
      | some e => some (i, e)
      | none => none

/-- The grammar `NonDecimalIntegerLiteral` (`0x`, `0o`, `0b` prefixes, no
sign), to the end of the text. -/
def parseNonDecimal (cs : List Char) : Option Nat :=
  match cs with
  | '0' :: p :: rest =>
    let base : Nat :=
      if p = 'x' ∨ p = 'X' then 16
      else if p = 'o' ∨ p = 'O' then 8
      else if p = 'b' ∨ p = 'B' then 2
      else 0
    if base = 0 then none
    else
      match takeDigits base rest 0 0 with
      | (count, n, []) => if count = 0 then none else some n
      | _ => none
  | _ => none

/-- Rounding of a decimal `± m * 10^e` to a number: magnitudes from
`overflowThreshold` on round to an infinity; below that the value is finite and
kept exact. -/
def roundDecimal (negative : Bool) (m : Nat) (e : Int) : JSNum :=
  let overflow : Bool :=
    match e with
    | Int.ofNat k => decide (overflowThreshold ≤ m * 10 ^ k)
    | Int.negSucc k => decide (overflowThreshold * 10 ^ (k + 1) ≤ m)
  if overflow then .inf negative
  else .fin ((if negative then -1 else 1) * (m : ℚ) * (10 : ℚ) ^ e)

/-- The conversion `StringToNumber` applied by unary `+` to a string: white
space is trimmed, the empty text is `0`, a `StringNumericLiteral` has its
value, anything else is `NaN`. -/
def toNumber (s : String) : JSNum :=
  let cs := trimChars s.data
  if cs = [] then .fin 0
  else
    match parseNonDecimal cs with
    | some n => roundDecimal false n 0
    | none =>
      let (negative, body) :=
        match cs with
        | '+' :: r => (false, r)
        | '-' :: r => (true, r)
        | r => (false, r)
      if body = "Infinity".data then .inf negative
      else
        match parseUnsignedDecimal body with
        | some (m, e) => roundDecimal negative m e
        | none => .nan

/-- The function `pickNumFlex(row, candidates)`: `v === '' ? NaN : +v`. -/
def pickNumFlex (row : CsvRow) (candidates : List String) : JSNum :=
  let v := pickFlex row candidates
  if v = "" then .nan else toNumber v

/-! ## Region backfill (LoadHappiness.js, lines 61-95) -/

/-- The operator `a || b` on strings: the empty string is falsy. -/
def strOr (a b : String) : String :=
  if a = "" then b else a

/-- The operator `a || b` where `a` is a string or `undefined`. -/
def optOr (a : Option String) (b : String) : String :=
  match a with
  | some s => if s = "" then b else s
  | none => b

/-- The row callback of `getRegionMap2015`: `{ country, region }`. -/
def regionMapRow (d : CsvRow) : String × String :=
  (jsTrim (strOr (pickFlex d ["Country name", "Country"]) ""),
   strOr (jsTrim (strOr (pickFlex d COLS.region) "")) "World")

/-- The map `REGION_MAP_2015 = new Map(rows.map(r => [r.country, r.region]))`
built from the rows of the reference file. -/
def getRegionMap2015 (rows2015 : List CsvRow) : List (String × String) :=
  (rows2015.map regionMapRow).foldl (fun m r => objSet m r.1 r.2) []

/-- The `region` expression `regionInFile || regionByCountry.get(country) ||
'World'`. -/
def regionOf (regionByCountry : List (String × String)) (country regionInFile : String) :
    String :=
  optOr (if regionInFile = "" then objGet regionByCountry country else some regionInFile)
    "World"

/-- The row callback of `loadHappinessYear`. -/
def loadRow (regionByCountry : List (String × String)) (d : CsvRow) : HRow :=
  let country := jsTrim (strOr (pickFlex d COLS.country) "")
  let regionInFile := jsTrim (strOr (pickFlex d COLS.region) "")
  { country := country
    region := regionOf regionByCountry country regionInFile
    score := pickNumFlex d COLS.score
    gdp := pickNumFlex d COLS.gdp
    social := pickNumFlex d COLS.social
    life := pickNumFlex d COLS.life
    freedom := pickNumFlex d COLS.freedom
    generosity := pickNumFlex d COLS.generosity
    corruption := pickNumFlex d COLS.corruption }

/-- The `data` field of `loadHappinessYear(year)`, from the rows of the
reference file and of the file of the year. -/
def loadHappinessYear (rows2015 rowsYear : List CsvRow) : List HRow :=
  rowsYear.map (loadRow (getRegionMap2015 rows2015))


/-! ## Sample data for the concrete checks -/

/-- A loaded row with the given country, region and score, every other metric
being `1`. -/
def sampleRow (country region : String) (score : JSNum) : HRow :=
  { country := country, region := region, score := score, gdp := .fin 1, social := .fin 1,
    life := .fin 1, freedom := .fin 1, generosity := .fin 1, corruption := .fin 1 }

/-! ## Auxiliary definitions for the drawing loop -/

/-- The path calls for a list of points: `moveTo` for the first when `first`
holds, `lineTo` for the others. -/
def pathCmds : Bool → List Pt → List CanvasOp
  | _, [] => []
  | first, p :: ps =>
    (if first then CanvasOp.moveTo p.1 p.2 else CanvasOp.lineTo p.1 p.2) :: pathCmds false ps

/-- The points of a row along the axes, up to the first axis without a point. -/
def prefixPoints (gx : String → ℚ) (yp : String → ℚ → Option JSNum) (row : HRow) :
    List String → List Pt
  | [] => []
  | k :: ks =>
    match axisPoint gx yp row k with
    | some p => p :: prefixPoints gx yp row ks
    | none => []

/-- The canvas calls of `drawLines` as the component issues them: positions
from `getX` over the layout scale of `order`, vertical positions from `yPos`
over the statistics of `data`. -/
def renderLines (mode : DisplayMode) (scaleNice : Stat → ℚ → JSNum) (yUnit10 : JSNum → JSNum)
    (pos : List (String × ℚ)) (width : ℚ) (dims : List AxisDescriptor) (order : List String)
    (data : List HRow) : Option (List CanvasOp) :=
  drawLines (getX pos (xScale order width))
    (yPos mode scaleNice yUnit10 (stats data dims)) order data


/-- The initial axis order of the application: the keys of its descriptors. -/
def appOrder : List String := appDims.map AxisDescriptor.key

/-- Two sample rows: one complete, one without a score. -/
def sampleData : List HRow := [sampleRow "A" "R" (.fin 5), sampleRow "B" "R" .nan]

/-! ## Auxiliary definitions for the loader -/

/-- The value of the last entry with key `k` in a list of entries. -/
def lastValue {β : Type} (k : String) : List (String × β) → Option β
  | [] => none
  | e :: rest =>
    match lastValue k rest with
    | some v => some v
    | none => if e.1 = k then some e.2 else none

/-- The last header of the row whose normalized name is `n`. -/
def lastHeader (row : CsvRow) (n : String) : Option String :=
  lastValue n (row.map (fun p => (norm p.1, p.1)))

/-- The exact pass finds nothing under candidate `c`: the row has no header
`c`, or holds the empty string under it. -/
def exactMiss (row : CsvRow) (c : String) : Prop :=
  objGet row c = none ∨ objGet row c = some ""

/-- The normalized pass finds nothing for candidate `c`: the last header with
the normalized name of `c`, if there is one, is the empty header or holds the
empty string. -/
def normMiss (row : CsvRow) (c : String) : Prop :=
  ∀ k, lastHeader row (norm c) = some k → k = "" ∨ objGet row k = some ""

/-! # Theorems -/

/-! ## Lemmas on objects and `stats` -/

theorem objGet_objSet_same {α : Type} (obj : List (String × α)) (k : String) (v : α) :
    objGet (objSet obj k v) k = some v := by
  induction obj with
  | nil => simp [objSet, objGet]
  | cons p rest ih =>
    obtain ⟨k', v'⟩ := p
    by_cases h : k' = k
    · simp [objSet, objGet, h]
    · simp [objSet, objGet, h, ih]

theorem objGet_objSet_other {α : Type} (obj : List (String × α)) (k k' : String) (v : α)
    (h : k ≠ k') : objGet (objSet obj k v) k' = objGet obj k' := by
  induction obj with
  | nil => simp [objSet, objGet, h]
  | cons p rest ih =>
    obtain ⟨k'', v''⟩ := p
    by_cases h1 : k'' = k
    · subst h1
      simp [objSet, objGet, h]
    · by_cases h2 : k'' = k'
      · subst h2
        simp [objSet, objGet, h1]
      · simp [objSet, objGet, h1, h2, ih]

theorem objGet_stats_aux (data : List HRow) (dims : List AxisDescriptor)
    (s : List (String × Stat)) (k : String) :
    objGet (dims.foldl (fun s d => objSet s d.key (statEntry data d.key)) s) k
      = if k ∈ dims.map AxisDescriptor.key then some (statEntry data k) else objGet s k := by
  induction dims generalizing s with
  | nil => simp
  | cons d rest ih =>
    rw [List.foldl_cons, ih]
    by_cases hk : k ∈ rest.map AxisDescriptor.key
    · have : k ∈ (d :: rest).map AxisDescriptor.key := by
        simp only [List.map_cons, List.mem_cons]; exact Or.inr hk
      rw [if_pos hk, if_pos this]
    · rw [if_neg hk]
      by_cases hd : d.key = k
      · have : k ∈ (d :: rest).map AxisDescriptor.key := by
          simp only [List.map_cons, List.mem_cons]; exact Or.inl hd.symm
        rw [if_pos this, ← hd, objGet_objSet_same]
      · have : k ∉ (d :: rest).map AxisDescriptor.key := by
          simp only [List.map_cons, List.mem_cons, not_or]
          exact ⟨fun h => hd h.symm, hk⟩
        rw [if_neg this, objGet_objSet_other _ _ _ _ hd]

/-- Lookup in `stats`: an entry exists exactly for the keys of `dims`. -/
theorem objGet_stats (data : List HRow) (dims : List AxisDescriptor) (k : String) :
    objGet (stats data dims) k
      = if k ∈ dims.map AxisDescriptor.key then some (statEntry data k) else none := by
  unfold stats
  rw [objGet_stats_aux]
  simp [objGet]

/-! ## Lemmas on `extent` -/

theorem extent_foldl_some (values : List ℚ) (mn mx : ℚ) :
    ∃ a b, values.foldl extentStep (some (mn, mx)) = some (a, b) ∧
      (a = mn ∨ a ∈ values) ∧ (b = mx ∨ b ∈ values) ∧
      a ≤ mn ∧ mx ≤ b ∧ (∀ v ∈ values, a ≤ v ∧ v ≤ b) := by
  induction values generalizing mn mx with
  | nil => exact ⟨mn, mx, rfl, Or.inl rfl, Or.inl rfl, le_refl _, le_refl _, by simp⟩
  | cons x xs ih =>
    obtain ⟨a, b, hab, ha, hb, hle, hge, hall⟩ :=
      ih (if mn > x then x else mn) (if mx < x then x else mx)
    refine ⟨a, b, ?_, ?_, ?_, ?_, ?_, ?_⟩
    · simpa [List.foldl_cons, extentStep] using hab
    · rcases ha with ha | ha
      · by_cases h : mn > x
        · rw [if_pos h] at ha
          exact Or.inr (by simp [ha])
        · rw [if_neg h] at ha
          exact Or.inl ha
      · exact Or.inr (List.mem_cons_of_mem _ ha)
    · rcases hb with hb | hb
      · by_cases h : mx < x
        · rw [if_pos h] at hb
          exact Or.inr (by simp [hb])
        · rw [if_neg h] at hb
          exact Or.inl hb
      · exact Or.inr (List.mem_cons_of_mem _ hb)
    · by_cases h : mn > x
      · rw [if_pos h] at hle
        exact le_trans hle (le_of_lt h)
      · rw [if_neg h] at hle
        exact hle
    · by_cases h : mx < x
      · rw [if_pos h] at hge
        exact le_trans (le_of_lt h) hge
      · rw [if_neg h] at hge
        exact hge
    · intro v hv
      rcases List.mem_cons.1 hv with hv | hv
      · subst hv
        constructor
        · by_cases h : mn > v
          · rw [if_pos h] at hle
            exact hle
          · rw [if_neg h] at hle
            exact le_trans hle (not_lt.1 h)
        · by_cases h : mx < v
          · rw [if_pos h] at hge
            exact hge
          · rw [if_neg h] at hge
            exact le_trans (not_lt.1 h) hge
      · exact hall v hv

theorem extent_nil : extent [] = none := rfl

/-- On a non-empty list `d3.extent` returns its least and greatest element. -/
theorem extent_cons (x : ℚ) (xs : List ℚ) :
    ∃ a b, extent (x :: xs) = some (a, b) ∧ a ∈ x :: xs ∧ b ∈ x :: xs ∧
      ∀ v ∈ x :: xs, a ≤ v ∧ v ≤ b := by
  obtain ⟨a, b, hab, ha, hb, hle, hge, hall⟩ := extent_foldl_some xs x x
  refine ⟨a, b, ?_, ?_, ?_, ?_⟩
  · simpa [extent, List.foldl_cons, extentStep] using hab
  · rcases ha with ha | ha
    · simp [ha]
    · exact List.mem_cons_of_mem _ ha
  · rcases hb with hb | hb
    · simp [hb]
    · exact List.mem_cons_of_mem _ hb
  · intro v hv
    rcases List.mem_cons.1 hv with hv | hv
    · subst hv
      exact ⟨hle, hge⟩
    · exact hall v hv

/-- A value is among `finiteVals data key` exactly when some row holds it as a
finite number under `key`. -/
theorem mem_finiteVals (data : List HRow) (key : String) (q : ℚ) :
    q ∈ finiteVals data key ↔ ∃ r ∈ data, r.get key = .num (.fin q) := by
  unfold finiteVals
  simp only [List.mem_filterMap, List.mem_map]
  constructor
  · rintro ⟨v, ⟨r, hr, rfl⟩, hv⟩
    refine ⟨r, hr, ?_⟩
    cases hg : r.get key with
    | num n =>
      cases n with
      | fin q' =>
        rw [hg] at hv
        simp only [JSVal.finite?, Option.some.injEq] at hv
        rw [hv]
      | nan => rw [hg] at hv; simp [JSVal.finite?] at hv
      | inf s => rw [hg] at hv; simp [JSVal.finite?] at hv
    | str s => rw [hg] at hv; simp [JSVal.finite?] at hv
    | undefined => rw [hg] at hv; simp [JSVal.finite?] at hv
  · rintro ⟨r, hr, hg⟩
    exact ⟨r.get key, ⟨r, hr, rfl⟩, by rw [hg]; rfl⟩


/-- No finite value under `key`: the entry is the fallback `{ min: 0, max: 1 }`. -/
theorem statEntry_of_no_finite (data : List HRow) (key : String)
    (h : ∀ r ∈ data, Number.isFinite (r.get key) = false) : statEntry data key = ⟨0, 1⟩ := by
  have hnil : finiteVals data key = [] := by
    apply List.eq_nil_iff_forall_not_mem.2
    intro q hq
    obtain ⟨r, hr, hg⟩ := (mem_finiteVals data key q).1 hq
    have := h r hr
    rw [hg] at this
    simp [Number.isFinite] at this
  unfold statEntry
  rw [hnil, extent_nil]

/-- Some finite value under `key`: the entry holds the least and the greatest
of the finite values. -/
theorem statEntry_of_finite (data : List HRow) (key : String)
    (h : ∃ r ∈ data, Number.isFinite (r.get key) = true) :
    (∃ r ∈ data, r.get key = .num (.fin (statEntry data key).min)) ∧
    (∃ r ∈ data, r.get key = .num (.fin (statEntry data key).max)) ∧
    ∀ r ∈ data, ∀ q, r.get key = .num (.fin q) →
      (statEntry data key).min ≤ q ∧ q ≤ (statEntry data key).max := by
  obtain ⟨r0, hr0, hf0⟩ := h
  have hmem0 : ∃ q0, q0 ∈ finiteVals data key := by
    cases hg : r0.get key with
    | num n =>
      cases n with
      | fin q0 => exact ⟨q0, (mem_finiteVals data key q0).2 ⟨r0, hr0, hg⟩⟩
      | nan => rw [hg] at hf0; simp [Number.isFinite] at hf0
      | inf s => rw [hg] at hf0; simp [Number.isFinite] at hf0
    | str s => rw [hg] at hf0; simp [Number.isFinite] at hf0
    | undefined => rw [hg] at hf0; simp [Number.isFinite] at hf0
  obtain ⟨q0, hq0⟩ := hmem0
  cases hvals : finiteVals data key with
  | nil => rw [hvals] at hq0; simp at hq0
  | cons x xs =>
    obtain ⟨a, b, hab, ha, hb, hall⟩ := extent_cons x xs
    have hst : statEntry data key = ⟨a, b⟩ := by
      unfold statEntry
      rw [hvals, hab]
    rw [hst]
    rw [← hvals] at ha hb hall
    refine ⟨(mem_finiteVals data key a).1 ha, (mem_finiteVals data key b).1 hb, ?_⟩
    intro r hr q hq
    exact hall q ((mem_finiteVals data key q).2 ⟨r, hr, hq⟩)

/-- Every entry of `stats` has `min ≤ max`. -/
theorem statEntry_min_le_max (data : List HRow) (key : String) :
    (statEntry data key).min ≤ (statEntry data key).max := by
  by_cases h : ∃ r ∈ data, Number.isFinite (r.get key) = true
  · obtain ⟨⟨r, hr, hg⟩, _, hall⟩ := statEntry_of_finite data key h
    exact le_trans (hall r hr _ hg).1 (hall r hr _ hg).2
  · have h' : ∀ r ∈ data, Number.isFinite (r.get key) = false := by
      intro r hr
      by_contra hc
      exact h ⟨r, hr, by simpa using hc⟩
    rw [statEntry_of_no_finite data key h']
    norm_num

/-- All finite values under `key` equal `a`, and there is one: the entry is
`{ min: a, max: a }`. -/
theorem statEntry_of_constant (data : List HRow) (key : String) (a : ℚ)
    (hex : ∃ r ∈ data, r.get key = .num (.fin a))
    (hall : ∀ r ∈ data, ∀ q, r.get key = .num (.fin q) → q = a) :
    statEntry data key = ⟨a, a⟩ := by
  have hfin : ∃ r ∈ data, Number.isFinite (r.get key) = true := by
    obtain ⟨r, hr, hg⟩ := hex
    exact ⟨r, hr, by rw [hg]; rfl⟩
  obtain ⟨⟨r1, hr1, hg1⟩, ⟨r2, hr2, hg2⟩, _⟩ := statEntry_of_finite data key hfin
  have h1 := hall r1 hr1 _ hg1
  have h2 := hall r2 hr2 _ hg2
  cases hst : statEntry data key with
  | mk mn mx =>
    rw [hst] at h1 h2
    simp only at h1 h2
    rw [h1, h2]

/-! ## Arithmetic with overflow -/

theorem ten_lt_overflowThreshold : (10 : ℚ) < (overflowThreshold : ℚ) := by
  unfold overflowThreshold
  norm_num

theorem ofExact_of_abs_lt (q : ℚ) (h : |q| < (overflowThreshold : ℚ)) :
    JSNum.ofExact q = .fin q := by
  unfold JSNum.ofExact
  rw [if_neg (not_le.2 h)]

theorem ofExact_of_ge (q : ℚ) (h : (overflowThreshold : ℚ) ≤ q) :
    JSNum.ofExact q = .inf false := by
  have hpos : (0 : ℚ) < q := lt_of_lt_of_le (by linarith [ten_lt_overflowThreshold]) h
  unfold JSNum.ofExact
  rw [if_pos (by rw [abs_of_pos hpos]; exact h)]
  simp [not_lt.2 (le_of_lt hpos)]

theorem ofExact_of_le_neg (q : ℚ) (h : q ≤ -(overflowThreshold : ℚ)) :
    JSNum.ofExact q = .inf true := by
  have hneg : q < 0 := lt_of_le_of_lt h (by linarith [ten_lt_overflowThreshold])
  unfold JSNum.ofExact
  rw [if_pos (by rw [abs_of_neg hneg]; linarith)]
  simp [hneg]

theorem ofExact_nonneg (q : ℚ) (h : 0 ≤ q) :
    JSNum.ofExact q = .fin q ∨ JSNum.ofExact q = .inf false := by
  by_cases hq : (overflowThreshold : ℚ) ≤ q
  · exact Or.inr (ofExact_of_ge q hq)
  · exact Or.inl (ofExact_of_abs_lt q (by rw [abs_of_nonneg h]; exact not_le.1 hq))

theorem ofExact_nonpos (q : ℚ) (h : q ≤ 0) :
    JSNum.ofExact q = .fin q ∨ JSNum.ofExact q = .inf true := by
  by_cases hq : q ≤ -(overflowThreshold : ℚ)
  · exact Or.inr (ofExact_of_le_neg q hq)
  · exact Or.inl (ofExact_of_abs_lt q (by rw [abs_of_nonpos h]; linarith [not_le.1 hq]))

/-- The clamp and the scaling by ten, on a finite quotient. -/
theorem clamp_mul_fin (q : ℚ) :
    JSNum.mul (Math.max (.fin 0) (Math.min (.fin 1) (.fin q))) (.fin 10)
      = .fin (max 0 (min 1 q) * 10) := by
  have h0 : (0 : ℚ) ≤ max 0 (min 1 q) := le_max_left _ _
  have h1 : max 0 (min 1 q) ≤ 1 := max_le (by norm_num) (min_le_left _ _)
  have hc : JSNum.mul (Math.max (.fin 0) (Math.min (.fin 1) (.fin q))) (.fin 10)
      = JSNum.ofExact (max 0 (min 1 q) * 10) := by
    simp only [Math.min, Math.max, JSNum.mul, ← min_def, ← max_def]
  rw [hc]
  apply ofExact_of_abs_lt
  rw [abs_of_nonneg (by positivity)]
  linarith [ten_lt_overflowThreshold]

/-- The clamp and the scaling by ten, on `+Infinity`. -/
theorem clamp_mul_pinf :
    JSNum.mul (Math.max (.fin 0) (Math.min (.fin 1) (.inf false))) (.fin 10) = .fin 10 := by
  have hc : JSNum.mul (Math.max (.fin 0) (Math.min (.fin 1) (.inf false))) (.fin 10)
      = JSNum.ofExact (1 * 10) := by
    simp [Math.min, Math.max, JSNum.mul]
  rw [hc, ofExact_of_abs_lt _ (by
    rw [abs_of_nonneg (by norm_num)]
    linarith [ten_lt_overflowThreshold])]
  norm_num

/-- The clamp and the scaling by ten, on `-Infinity`. -/
theorem clamp_mul_ninf :
    JSNum.mul (Math.max (.fin 0) (Math.min (.fin 1) (.inf true))) (.fin 10) = .fin 0 := by
  have hc : JSNum.mul (Math.max (.fin 0) (Math.min (.fin 1) (.inf true))) (.fin 10)
      = JSNum.ofExact (0 * 10) := by
    simp [Math.min, Math.max, JSNum.mul]
  rw [hc, ofExact_of_abs_lt _ (by
    rw [abs_of_nonneg (by norm_num)]
    linarith [ten_lt_overflowThreshold])]
  norm_num

/-- The divisor `max - min || 1` for statistics with `min ≤ max`: `1` on a
degenerate range, else the difference, or `+Infinity` when that overflows. -/
theorem divisor_cases (st : Stat) (hst : st.min ≤ st.max) :
    (st.min = st.max ∧
      JSNum.or (JSNum.sub (.fin st.max) (.fin st.min)) (.fin 1) = .fin 1) ∨
    (st.min < st.max ∧ st.max - st.min < (overflowThreshold : ℚ) ∧
      JSNum.or (JSNum.sub (.fin st.max) (.fin st.min)) (.fin 1) = .fin (st.max - st.min)) ∨
    (st.min < st.max ∧ (overflowThreshold : ℚ) ≤ st.max - st.min ∧
      JSNum.or (JSNum.sub (.fin st.max) (.fin st.min)) (.fin 1) = .inf false) := by
  rcases eq_or_lt_of_le hst with heq | hlt
  · left
    refine ⟨heq, ?_⟩
    have h0 : JSNum.ofExact (st.max - st.min) = .fin 0 := by
      rw [heq, sub_self]
      exact ofExact_of_abs_lt 0 (by rw [abs_zero]; linarith [ten_lt_overflowThreshold])
    simp [JSNum.sub, h0, JSNum.or]
  · right
    have hpos : 0 < st.max - st.min := sub_pos.2 hlt
    by_cases hov : (overflowThreshold : ℚ) ≤ st.max - st.min
    · right
      refine ⟨hlt, hov, ?_⟩
      simp [JSNum.sub, ofExact_of_ge _ hov, JSNum.or]
    · left
      refine ⟨hlt, not_le.1 hov, ?_⟩
      have := ofExact_of_abs_lt (st.max - st.min)
        (by rw [abs_of_pos hpos]; exact not_le.1 hov)
      simp [JSNum.sub, this, JSNum.or, ne_of_gt hpos]

/-- The unit value at `min` is `0`. -/
theorem unit10_at_min (st : Stat) (hst : st.min ≤ st.max) : unit10 st st.min = .fin 0 := by
  have hnum : JSNum.sub (.fin st.min) (.fin st.min) = .fin 0 := by
    simp only [JSNum.sub, sub_self]
    exact ofExact_of_abs_lt 0 (by rw [abs_zero]; linarith [ten_lt_overflowThreshold])
  have h0 : JSNum.ofExact 0 = .fin 0 :=
    ofExact_of_abs_lt 0 (by rw [abs_zero]; linarith [ten_lt_overflowThreshold])
  unfold unit10
  simp only [hnum]
  rcases divisor_cases st hst with ⟨_, hd⟩ | ⟨hlt, _, hd⟩ | ⟨_, _, hd⟩
  · rw [hd]
    have : JSNum.div (.fin 0) (.fin 1) = .fin 0 := by simp [JSNum.div, h0]
    rw [this, clamp_mul_fin]
    norm_num
  · rw [hd]
    have : JSNum.div (.fin 0) (.fin (st.max - st.min)) = .fin 0 := by
      simp [JSNum.div, h0, ne_of_gt (sub_pos.2 hlt)]
    rw [this, clamp_mul_fin]
    norm_num
  · rw [hd]
    have : JSNum.div (.fin 0) (.inf false) = .fin 0 := rfl
    rw [this, clamp_mul_fin]
    norm_num

/-- The quotient of a finite non-positive number by a finite positive one is
clamped to `0`. -/
theorem clamp_div_nonpos (n d : ℚ) (hn : n ≤ 0) (hd : 0 < d) :
    JSNum.mul (Math.max (.fin 0) (Math.min (.fin 1) (JSNum.div (.fin n) (.fin d)))) (.fin 10)
      = .fin 0 := by
  have hq : n / d ≤ 0 := div_nonpos_of_nonpos_of_nonneg hn (le_of_lt hd)
  have hdiv : JSNum.div (.fin n) (.fin d) = JSNum.ofExact (n / d) := by
    simp [JSNum.div, ne_of_gt hd]
  rw [hdiv]
  rcases ofExact_nonpos (n / d) hq with h | h
  · rw [h, clamp_mul_fin, max_eq_left (le_trans (min_le_right _ _) hq)]
    norm_num
  · rw [h, clamp_mul_ninf]

/-- The quotient of a finite number by a smaller finite positive one is clamped
to `1`. -/
theorem clamp_div_ge (n d : ℚ) (hn : d ≤ n) (hd : 0 < d) :
    JSNum.mul (Math.max (.fin 0) (Math.min (.fin 1) (JSNum.div (.fin n) (.fin d)))) (.fin 10)
      = .fin 10 := by
  have hq : 1 ≤ n / d := by
    rw [le_div_iff₀ hd]
    linarith
  have hdiv : JSNum.div (.fin n) (.fin d) = JSNum.ofExact (n / d) := by
    simp [JSNum.div, ne_of_gt hd]
  rw [hdiv]
  rcases ofExact_nonneg (n / d) (by linarith) with h | h
  · rw [h, clamp_mul_fin, min_eq_left hq]
    norm_num
  · rw [h, clamp_mul_pinf]

/-- Below `min` the unit value is `0`, for statistics with `min ≤ max` and
numbers within the finite range. -/
theorem unit10_below (st : Stat) (v : ℚ) (hst : st.min ≤ st.max) (hv : v ≤ st.min)
    (hvr : -(overflowThreshold : ℚ) < v) (hmr : st.max < (overflowThreshold : ℚ)) :
    unit10 st v = .fin 0 := by
  have hn : v - st.min ≤ 0 := sub_nonpos.2 hv
  unfold unit10
  simp only
  rcases divisor_cases st hst with ⟨_, hd⟩ | ⟨hlt, _, hd⟩ | ⟨_, hov, hd⟩
  · rw [hd]
    rcases ofExact_nonpos _ hn with h | h
    · simp only [JSNum.sub, h]
      exact clamp_div_nonpos _ 1 hn (by norm_num)
    · simp only [JSNum.sub, h]
      have : JSNum.div (.inf true) (.fin 1) = .inf true := by simp [JSNum.div]
      rw [this, clamp_mul_ninf]
  · rw [hd]
    have hpos : 0 < st.max - st.min := sub_pos.2 hlt
    rcases ofExact_nonpos _ hn with h | h
    · simp only [JSNum.sub, h]
      exact clamp_div_nonpos _ _ hn hpos
    · simp only [JSNum.sub, h]
      have : JSNum.div (.inf true) (.fin (st.max - st.min)) = .inf true := by
        simp [JSNum.div, not_lt.2 (le_of_lt hpos)]
      rw [this, clamp_mul_ninf]
  · rw [hd]
    have hfin : JSNum.ofExact (v - st.min) = .fin (v - st.min) := by
      apply ofExact_of_abs_lt
      rw [abs_of_nonpos hn]
      linarith
    simp only [JSNum.sub, hfin]
    have : JSNum.div (.fin (v - st.min)) (.inf false) = .fin 0 := rfl
    rw [this, clamp_mul_fin]
    norm_num

/-- From `max` upwards the unit value is `10`, when `min < max` and `max - min`
does not overflow. -/
theorem unit10_above (st : Stat) (v : ℚ) (hst : st.min < st.max)
    (hd : st.max - st.min < (overflowThreshold : ℚ)) (hv : st.max ≤ v) :
    unit10 st v = .fin 10 := by
  have hpos : 0 < st.max - st.min := sub_pos.2 hst
  have hn : st.max - st.min ≤ v - st.min := by linarith
  have hden : JSNum.or (JSNum.sub (.fin st.max) (.fin st.min)) (.fin 1)
      = .fin (st.max - st.min) := by
    have := ofExact_of_abs_lt (st.max - st.min) (by rw [abs_of_pos hpos]; exact hd)
    simp [JSNum.sub, this, JSNum.or, ne_of_gt hpos]
  unfold unit10
  simp only
  rw [hden]
  rcases ofExact_nonneg (v - st.min) (by linarith) with h | h
  · simp only [JSNum.sub, h]
    exact clamp_div_ge _ _ hn hpos
  · simp only [JSNum.sub, h]
    have : JSNum.div (.inf false) (.fin (st.max - st.min)) = .inf false := by
      simp [JSNum.div, not_lt.2 (le_of_lt hpos)]
    rw [this, clamp_mul_pinf]

/-- On a degenerate entry (`min = max`) the divisor is `1`: the unit value is
the clamped distance from `min`, times ten. -/
theorem unit10_degenerate (a v : ℚ) :
    unit10 ⟨a, a⟩ v = .fin (max 0 (min 1 (v - a)) * 10) := by
  have hden : JSNum.or (JSNum.sub (.fin a) (.fin a)) (.fin 1) = .fin 1 := by
    have h0 : JSNum.ofExact 0 = .fin 0 :=
      ofExact_of_abs_lt 0 (by rw [abs_zero]; linarith [ten_lt_overflowThreshold])
    simp [JSNum.sub, h0, JSNum.or]
  unfold unit10
  simp only
  rw [hden]
  by_cases hhi : (overflowThreshold : ℚ) ≤ v - a
  · have h1 : (1 : ℚ) ≤ v - a := by linarith [ten_lt_overflowThreshold]
    simp only [JSNum.sub, ofExact_of_ge _ hhi]
    have : JSNum.div (.inf false) (.fin 1) = .inf false := by simp [JSNum.div]
    rw [this, clamp_mul_pinf, min_eq_left h1]
    norm_num
  · by_cases hlo : v - a ≤ -(overflowThreshold : ℚ)
    · have h0 : v - a ≤ 0 := by linarith [ten_lt_overflowThreshold]
      simp only [JSNum.sub, ofExact_of_le_neg _ hlo]
      have : JSNum.div (.inf true) (.fin 1) = .inf true := by simp [JSNum.div]
      rw [this, clamp_mul_ninf, max_eq_left (le_trans (min_le_right _ _) h0)]
      norm_num
    · have hfin : JSNum.ofExact (v - a) = .fin (v - a) := by
        apply ofExact_of_abs_lt
        rw [abs_lt]
        exact ⟨by linarith [not_le.1 hlo], not_le.1 hhi⟩
      simp only [JSNum.sub, hfin]
      have : JSNum.div (.fin (v - a)) (.fin 1) = .fin (v - a) := by
        simp [JSNum.div, hfin]
      rw [this, clamp_mul_fin]

/-- When `max - min` overflows, the unit value at `max` is `NaN`. -/
theorem unit10_overflow (st : Stat) (hov : (overflowThreshold : ℚ) ≤ st.max - st.min) :
    unit10 st st.max = .nan := by
  have h := ofExact_of_ge _ hov
  simp [unit10, JSNum.sub, h, JSNum.or, JSNum.div, Math.min, Math.max, JSNum.mul]

/-! ## C4: the statistics of an axis -/

/-- C4: for every row list and every axis of `dims`, `stats` has an entry for the
axis key; it is `{ min: 0, max: 1 }` when no row holds a finite value under the
key, and otherwise its `min` and `max` are finite values of the key among the
rows, below and above every finite value of the key (non-finite values are
ignored). -/
theorem stats_entry_is_finite_extent (data : List HRow) (dims : List AxisDescriptor)
    (d : AxisDescriptor) (hd : d ∈ dims) :
    ∃ st, objGet (stats data dims) d.key = some st ∧
      ((∀ r ∈ data, Number.isFinite (r.get d.key) = false) → st = ⟨0, 1⟩) ∧
      ((∃ r ∈ data, Number.isFinite (r.get d.key) = true) →
        (∃ r ∈ data, r.get d.key = .num (.fin st.min)) ∧
        (∃ r ∈ data, r.get d.key = .num (.fin st.max)) ∧
        ∀ r ∈ data, ∀ q, r.get d.key = .num (.fin q) → st.min ≤ q ∧ q ≤ st.max) := by
  refine ⟨statEntry data d.key, ?_, ?_, ?_⟩
  · rw [objGet_stats, if_pos (List.mem_map_of_mem _ hd)]
  · exact statEntry_of_no_finite data d.key
  · exact statEntry_of_finite data d.key

/-- Witness for C4: the score axis of the application over two sample rows. -/
theorem stats_entry_is_finite_extent_witness :
    (⟨"score", "Happiness score"⟩ : AxisDescriptor) ∈ appDims ∧
    ∃ st, objGet (stats [sampleRow "A" "R" (.fin 5), sampleRow "B" "R" .nan] appDims)
        (⟨"score", "Happiness score"⟩ : AxisDescriptor).key = some st ∧
      ((∀ r ∈ [sampleRow "A" "R" (.fin 5), sampleRow "B" "R" .nan],
          Number.isFinite (r.get (⟨"score", "Happiness score"⟩ : AxisDescriptor).key) = false) →
        st = ⟨0, 1⟩) ∧
      ((∃ r ∈ [sampleRow "A" "R" (.fin 5), sampleRow "B" "R" .nan],
          Number.isFinite (r.get (⟨"score", "Happiness score"⟩ : AxisDescriptor).key) = true) →
        (∃ r ∈ [sampleRow "A" "R" (.fin 5), sampleRow "B" "R" .nan],
          r.get (⟨"score", "Happiness score"⟩ : AxisDescriptor).key = .num (.fin st.min)) ∧
        (∃ r ∈ [sampleRow "A" "R" (.fin 5), sampleRow "B" "R" .nan],
          r.get (⟨"score", "Happiness score"⟩ : AxisDescriptor).key = .num (.fin st.max)) ∧
        ∀ r ∈ [sampleRow "A" "R" (.fin 5), sampleRow "B" "R" .nan], ∀ q,
          r.get (⟨"score", "Happiness score"⟩ : AxisDescriptor).key = .num (.fin q) →
            st.min ≤ q ∧ q ≤ st.max) :=
  ⟨by decide, stats_entry_is_finite_extent _ appDims ⟨"score", "Happiness score"⟩ (by decide)⟩

/-! ## C1: the normalized mapping clamps -/

/-- C1 fails as stated.  With the single visible score `5` the entry is
`{ min: 5, max: 5 }`, and `yPos` feeds the shared scale the unit `0`, not `10`,
for the value `max = 5`; for the value `5.5`, above `max`, it feeds `5`.  With
the visible scores `-1e308` and `1e308` the entry is `{ min: -1e308, max:
1e308 }`, `max - min` overflows to `Infinity`, and at the value `max` the unit
is `NaN`. -/
theorem unit10_at_max_counterexample :
    (statEntry [sampleRow "A" "R" (.fin 5)] "score" = ⟨5, 5⟩ ∧
      yPos .ten (fun _ _ => .nan) (fun u => u) (stats [sampleRow "A" "R" (.fin 5)] appDims)
        "score" 5 = some (.fin 0) ∧
      unit10 (statEntry [sampleRow "A" "R" (.fin 5)] "score")
        (statEntry [sampleRow "A" "R" (.fin 5)] "score").max ≠ .fin 10 ∧
      unit10 (statEntry [sampleRow "A" "R" (.fin 5)] "score") (11 / 2) = .fin 5) ∧
    (statEntry [sampleRow "A" "R" (.fin (-(10 ^ 308))), sampleRow "B" "R" (.fin (10 ^ 308))]
        "score" = ⟨-(10 ^ 308), 10 ^ 308⟩ ∧
      unit10 ⟨-(10 ^ 308), 10 ^ 308⟩ (10 ^ 308) = .nan) := by
  have hst : statEntry [sampleRow "A" "R" (.fin 5)] "score" = ⟨5, 5⟩ := by decide
  have hget : objGet (stats [sampleRow "A" "R" (.fin 5)] appDims) "score" = some ⟨5, 5⟩ := by
    decide
  refine ⟨⟨hst, ?_, ?_, ?_⟩, ?_, ?_⟩
  · simp only [yPos, hget]
    rw [unit10_degenerate]
    norm_num
  · rw [hst, unit10_degenerate]
    norm_num
  · rw [hst, unit10_degenerate]
    norm_num
  · have hg1 : (sampleRow "A" "R" (.fin (-(10 ^ 308)))).get "score"
        = .num (.fin (-(10 ^ 308))) := rfl
    have hg2 : (sampleRow "B" "R" (.fin (10 ^ 308))).get "score" = .num (.fin (10 ^ 308)) := rfl
    simp only [statEntry, finiteVals, List.map_cons, List.map_nil, hg1, hg2, List.filterMap_cons,
      List.filterMap_nil, JSVal.finite?, extent, List.foldl_cons, List.foldl_nil, extentStep]
    norm_num
  · apply unit10_overflow
    unfold overflowThreshold
    norm_num

/-- C1 (amended): in normalized mode, for statistics with `min ≤ max` and numbers
within the finite range, the unit value fed to the shared scale is `0` at `min`
and for every value `lo` below `min`; when `min < max` and `max - min` does not
overflow, it is `10` at `max` and for every value `hi` above `max`; on a
degenerate axis (`min = max`) it is `0` at `max`. -/
theorem unit10_clamps (st : Stat) (lo hi : ℚ) (hst : st.min ≤ st.max)
    (hlo : lo ≤ st.min) (hhi : st.max ≤ hi)
    (hlor : -(overflowThreshold : ℚ) < lo) (hmaxr : st.max < (overflowThreshold : ℚ)) :
    unit10 st st.min = .fin 0 ∧
    unit10 st lo = .fin 0 ∧
    (st.min < st.max → st.max - st.min < (overflowThreshold : ℚ) →
      unit10 st st.max = .fin 10 ∧ unit10 st hi = .fin 10) ∧
    (st.min = st.max → unit10 st st.max = .fin 0) := by
  refine ⟨unit10_at_min st hst, unit10_below st lo hst hlo hlor hmaxr, ?_, ?_⟩
  · intro hlt hd
    exact ⟨unit10_above st st.max hlt hd (le_refl _), unit10_above st hi hlt hd hhi⟩
  · intro heq
    rw [← heq]
    exact unit10_at_min st hst

/-- Witness for C1 (amended): the statistics `{ min: 3, max: 5 }` with the values
`2` and `7`, and the degenerate statistics `{ min: 5, max: 5 }` with the values
`4` and `6`. -/
theorem unit10_clamps_witness :
    ((Stat.mk 3 5).min ≤ (Stat.mk 3 5).max ∧ (2 : ℚ) ≤ (Stat.mk 3 5).min ∧
      (Stat.mk 3 5).max ≤ (7 : ℚ) ∧ -(overflowThreshold : ℚ) < 2 ∧
      (Stat.mk 3 5).max < (overflowThreshold : ℚ)) ∧
    (unit10 ⟨3, 5⟩ (Stat.mk 3 5).min = .fin 0 ∧
      unit10 ⟨3, 5⟩ 2 = .fin 0 ∧
      ((Stat.mk 3 5).min < (Stat.mk 3 5).max →
        (Stat.mk 3 5).max - (Stat.mk 3 5).min < (overflowThreshold : ℚ) →
        unit10 ⟨3, 5⟩ (Stat.mk 3 5).max = .fin 10 ∧ unit10 ⟨3, 5⟩ 7 = .fin 10) ∧
      ((Stat.mk 3 5).min = (Stat.mk 3 5).max → unit10 ⟨3, 5⟩ (Stat.mk 3 5).max = .fin 0)) ∧
    (unit10 ⟨5, 5⟩ (Stat.mk 5 5).min = .fin 0 ∧
      unit10 ⟨5, 5⟩ 4 = .fin 0 ∧
      ((Stat.mk 5 5).min < (Stat.mk 5 5).max →
        (Stat.mk 5 5).max - (Stat.mk 5 5).min < (overflowThreshold : ℚ) →
        unit10 ⟨5, 5⟩ (Stat.mk 5 5).max = .fin 10 ∧ unit10 ⟨5, 5⟩ 6 = .fin 10) ∧
      ((Stat.mk 5 5).min = (Stat.mk 5 5).max → unit10 ⟨5, 5⟩ (Stat.mk 5 5).max = .fin 0)) :=
  ⟨⟨by norm_num, by norm_num, by norm_num,
      by linarith [ten_lt_overflowThreshold], by
        show (5 : ℚ) < (overflowThreshold : ℚ)
        linarith [ten_lt_overflowThreshold]⟩,
    unit10_clamps ⟨3, 5⟩ 2 7 (by norm_num) (by norm_num) (by norm_num)
      (by linarith [ten_lt_overflowThreshold])
      (by show (5 : ℚ) < (overflowThreshold : ℚ); linarith [ten_lt_overflowThreshold]),
    unit10_clamps ⟨5, 5⟩ 4 6 (by norm_num) (by norm_num) (by norm_num)
      (by linarith [ten_lt_overflowThreshold])
      (by show (5 : ℚ) < (overflowThreshold : ℚ); linarith [ten_lt_overflowThreshold])⟩

/-! ## C5: degenerate ranges -/

/-- C5 fails as stated: when every finite score is `5` the entry of the axis is
`{ min: 5, max: 5 }`, and so is the domain given to the raw scale; neither is
the default `[0, 1]`. -/
theorem degenerate_domain_counterexample :
    objGet (stats [sampleRow "A" "R" (.fin 5), sampleRow "B" "R" (.fin 5)] appDims) "score"
      = some ⟨5, 5⟩ ∧
    rawDomain (stats [sampleRow "A" "R" (.fin 5), sampleRow "B" "R" (.fin 5)] appDims) "score"
      ≠ ⟨0, 1⟩ := by
  constructor <;> decide

/-- C5 (amended): for an axis of `dims` with no finite value, the entry of `stats`
and the domain of the raw scale are the default `[0, 1]`; for an axis whose
finite values all equal `a` (and there is one), the entry and the raw domain are
`[a, a]`, and the normalized mapping divides by `1`, sending `a` to unit `0`. -/
theorem degenerate_axis_domain (data : List HRow) (dims : List AxisDescriptor)
    (d : AxisDescriptor) (hd : d ∈ dims) :
    ((∀ r ∈ data, Number.isFinite (r.get d.key) = false) →
      objGet (stats data dims) d.key = some ⟨0, 1⟩ ∧
      rawDomain (stats data dims) d.key = ⟨0, 1⟩) ∧
    (∀ a : ℚ, (∃ r ∈ data, r.get d.key = .num (.fin a)) →
      (∀ r ∈ data, ∀ q, r.get d.key = .num (.fin q) → q = a) →
      objGet (stats data dims) d.key = some ⟨a, a⟩ ∧
      rawDomain (stats data dims) d.key = ⟨a, a⟩ ∧
      (∀ v, unit10 ⟨a, a⟩ v = .fin (max 0 (min 1 (v - a)) * 10)) ∧
      unit10 ⟨a, a⟩ a = .fin 0) := by
  have hget : objGet (stats data dims) d.key = some (statEntry data d.key) := by
    rw [objGet_stats, if_pos (List.mem_map_of_mem _ hd)]
  constructor
  · intro h
    have := statEntry_of_no_finite data d.key h
    refine ⟨by rw [hget, this], ?_⟩
    unfold rawDomain
    rw [hget, this]
  · intro a hex hall
    have := statEntry_of_constant data d.key a hex hall
    refine ⟨by rw [hget, this], ?_, unit10_degenerate a, ?_⟩
    · unfold rawDomain
      rw [hget, this]
    · rw [unit10_degenerate]
      norm_num

/-- Witness for C5 (amended): the score axis of the application over one row
without a score. -/
theorem degenerate_axis_domain_witness :
    (⟨"score", "Happiness score"⟩ : AxisDescriptor) ∈ appDims ∧
    (((∀ r ∈ [sampleRow "A" "R" .nan],
        Number.isFinite (r.get (⟨"score", "Happiness score"⟩ : AxisDescriptor).key) = false) →
      objGet (stats [sampleRow "A" "R" .nan] appDims)
        (⟨"score", "Happiness score"⟩ : AxisDescriptor).key = some ⟨0, 1⟩ ∧
      rawDomain (stats [sampleRow "A" "R" .nan] appDims)
        (⟨"score", "Happiness score"⟩ : AxisDescriptor).key = ⟨0, 1⟩) ∧
    (∀ a : ℚ, (∃ r ∈ [sampleRow "A" "R" .nan],
        r.get (⟨"score", "Happiness score"⟩ : AxisDescriptor).key = .num (.fin a)) →
      (∀ r ∈ [sampleRow "A" "R" .nan], ∀ q,
        r.get (⟨"score", "Happiness score"⟩ : AxisDescriptor).key = .num (.fin q) → q = a) →
      objGet (stats [sampleRow "A" "R" .nan] appDims)
        (⟨"score", "Happiness score"⟩ : AxisDescriptor).key = some ⟨a, a⟩ ∧
      rawDomain (stats [sampleRow "A" "R" .nan] appDims)
        (⟨"score", "Happiness score"⟩ : AxisDescriptor).key = ⟨a, a⟩ ∧
      (∀ v, unit10 ⟨a, a⟩ v = .fin (max 0 (min 1 (v - a)) * 10)) ∧
      unit10 ⟨a, a⟩ a = .fin 0)) :=
  ⟨by decide, degenerate_axis_domain [sampleRow "A" "R" .nan] appDims
    ⟨"score", "Happiness score"⟩ (by decide)⟩

/-! ## The drawing loop -/

theorem pathOps_eq (gx : String → ℚ) (yp : String → ℚ → Option JSNum) (row : HRow)
    (ks : List String) (first : Bool) (hyp : ∀ k ∈ ks, ∀ v, yp k v ≠ none) :
    pathOps gx yp row ks first
      = some (!(ks.all (fun k => (axisPoint gx yp row k).isSome)),
          pathCmds first (prefixPoints gx yp row ks)) := by
  induction ks generalizing first with
  | nil => simp [pathOps, pathCmds, prefixPoints]
  | cons k ks ih =>
    have hyp' : ∀ k' ∈ ks, ∀ v, yp k' v ≠ none :=
      fun k' hk' v => hyp k' (List.mem_cons_of_mem _ hk') v
    cases hv : (row.get k).finite? with
    | none =>
      have hap : axisPoint gx yp row k = none := by simp [axisPoint, hv]
      simp [pathOps, hv, prefixPoints, hap, pathCmds]
    | some v =>
      cases hy : yp k v with
      | none => exact absurd hy (hyp k (List.mem_cons_self _ _) v)
      | some n =>
        cases n with
        | fin y =>
          have hap : axisPoint gx yp row k = some (gx k, y) := by simp [axisPoint, hv, hy]
          simp [pathOps, hv, hy, ih false hyp', prefixPoints, hap, pathCmds]
        | nan =>
          have hap : axisPoint gx yp row k = none := by simp [axisPoint, hv, hy]
          simp [pathOps, hv, hy, prefixPoints, hap, pathCmds]
        | inf s =>
          have hap : axisPoint gx yp row k = none := by simp [axisPoint, hv, hy]
          simp [pathOps, hv, hy, prefixPoints, hap, pathCmds]

theorem prefixPoints_of_drawable (gx : String → ℚ) (yp : String → ℚ → Option JSNum)
    (row : HRow) (ks : List String)
    (h : ks.all (fun k => (axisPoint gx yp row k).isSome) = true) :
    prefixPoints gx yp row ks = ks.filterMap (axisPoint gx yp row) := by
  induction ks with
  | nil => rfl
  | cons k ks ih =>
    simp only [List.all_cons, Bool.and_eq_true] at h
    obtain ⟨p, hp⟩ := Option.isSome_iff_exists.1 h.1
    simp [prefixPoints, hp, ih h.2]

theorem run_append (c : Canvas) (a b : List CanvasOp) :
    c.run (a ++ b) = (c.run a).run b := by
  simp [Canvas.run, List.foldl_append]

theorem run_lineCmds (pts : List Pt) (sub : List Pt) (rest : List (List Pt))
    (s : List (List (Pt × Pt))) :
    Canvas.run { path := sub :: rest, strokes := s } (pathCmds false pts)
      = { path := (pts.reverse ++ sub) :: rest, strokes := s } := by
  induction pts generalizing sub with
  | nil => simp [pathCmds, Canvas.run]
  | cons p ps ih =>
    have := ih (p :: sub)
    simp only [Canvas.run] at this
    simp [pathCmds, Canvas.run, Canvas.step, this]

theorem run_pathCmds (pts : List Pt) (s : List (List (Pt × Pt))) :
    pathSegments (Canvas.run { path := [], strokes := s } (pathCmds true pts)).path
        = segments pts ∧
      (Canvas.run { path := [], strokes := s } (pathCmds true pts)).strokes = s := by
  cases pts with
  | nil => simp [pathCmds, Canvas.run, pathSegments, segments]
  | cons p ps =>
    have := run_lineCmds ps [p] [] s
    simp only [Canvas.run] at this
    simp [pathCmds, Canvas.run, Canvas.step, this, pathSegments]

/-- Effect of the calls of one row on the strokes of a canvas: a drawable row
adds the segments of its polyline, any other row adds nothing. -/
theorem run_rowOps (gx : String → ℚ) (yp : String → ℚ → Option JSNum) (order : List String)
    (row : HRow) (hyp : ∀ k ∈ order, ∀ v, yp k v ≠ none) :
    ∃ ops, rowOps gx yp order row = some ops ∧
      (CanvasOp.stroke ∈ ops ↔ drawable gx yp order row = true) ∧
      ∀ c : Canvas, (c.run ops).strokes
        = c.strokes ++ (if drawable gx yp order row
            then [segments (polyline gx yp order row)] else []) := by
  have hops := pathOps_eq gx yp row order true hyp
  have hrow : rowOps gx yp order row
      = some (CanvasOp.beginPath :: pathCmds true (prefixPoints gx yp row order) ++
          (if (!(order.all (fun k => (axisPoint gx yp row k).isSome))) = true then []
            else [CanvasOp.stroke])) := by
    simp only [rowOps, hops]
  refine ⟨_, hrow, ?_, ?_⟩
  · have hno : ∀ (b : Bool) (pts : List Pt), CanvasOp.stroke ∉ pathCmds b pts := by
      intro b pts
      induction pts generalizing b with
      | nil => simp [pathCmds]
      | cons p ps ih =>
        simp only [pathCmds, List.mem_cons, not_or]
        refine ⟨?_, ih false⟩
        cases b <;> simp
    by_cases hd : drawable gx yp order row = true
    · have hd' := hd
      unfold drawable at hd'
      simp [hd, hd']
    · have hd' := hd
      unfold drawable at hd'
      simp [hd, hd', hno]
  · intro c
    obtain ⟨hseg, hstr⟩ := run_pathCmds (prefixPoints gx yp row order) c.strokes
    have hbegin : ∀ ops, c.run (CanvasOp.beginPath :: ops)
        = Canvas.run { path := [], strokes := c.strokes } ops := fun _ => rfl
    have hstroke : ∀ c' : Canvas, (c'.run [CanvasOp.stroke]).strokes
        = c'.strokes ++ [pathSegments c'.path] := fun _ => rfl
    by_cases hd : drawable gx yp order row = true
    · have hd' := hd
      unfold drawable at hd'
      have hpts := prefixPoints_of_drawable gx yp row order hd'
      rw [if_neg (by simp [hd']), if_pos hd, List.cons_append, hbegin, run_append, hstroke,
        hseg, hstr, hpts]
      rfl
    · have hd' := hd
      unfold drawable at hd'
      rw [if_pos (by simpa using hd'), if_neg hd, List.append_nil, List.append_nil, hbegin, hstr]

/-- Effect of the calls of all rows on the strokes of a canvas. -/
theorem run_drawRows (gx : String → ℚ) (yp : String → ℚ → Option JSNum) (order : List String)
    (data : List HRow) (hyp : ∀ k ∈ order, ∀ v, yp k v ≠ none) :
    ∃ ops, drawRows gx yp order data = some ops ∧
      ∀ c : Canvas, (c.run ops).strokes
        = c.strokes ++ (data.filter (drawable gx yp order)).map
            (fun r => segments (polyline gx yp order r)) := by
  induction data with
  | nil => exact ⟨[], rfl, fun c => by simp [Canvas.run]⟩
  | cons row rest ih =>
    obtain ⟨rops, hrops, _, hrun⟩ := run_rowOps gx yp order row hyp
    obtain ⟨more, hmore, hrest⟩ := ih
    refine ⟨rops ++ more, by simp only [drawRows, hrops, hmore], ?_⟩
    intro c
    rw [run_append, hrest, hrun]
    by_cases hd : drawable gx yp order row = true
    · simp [hd, List.filter_cons]
    · simp [hd, List.filter_cons]

/-- A row is drawable exactly when each axis of the order holds a finite value
that `yp` sends to a finite position. -/
theorem drawable_iff (gx : String → ℚ) (yp : String → ℚ → Option JSNum) (order : List String)
    (row : HRow) :
    drawable gx yp order row = true ↔
      ∀ k ∈ order, ∃ v y, row.get k = .num (.fin v) ∧ yp k v = some (.fin y) := by
  unfold drawable
  rw [List.all_eq_true]
  constructor
  · intro h k hk
    have hk' := h k hk
    obtain ⟨p, hp⟩ := Option.isSome_iff_exists.1 hk'
    unfold axisPoint at hp
    cases hg : row.get k with
    | num n =>
      cases n with
      | fin v =>
        rw [hg] at hp
        simp only [JSVal.finite?] at hp
        cases hy : yp k v with
        | none => rw [hy] at hp; simp at hp
        | some m =>
          cases m with
          | fin y => exact ⟨v, y, rfl, hy⟩
          | nan => rw [hy] at hp; simp at hp
          | inf s => rw [hy] at hp; simp at hp
      | nan => rw [hg] at hp; simp [JSVal.finite?] at hp
      | inf s => rw [hg] at hp; simp [JSVal.finite?] at hp
    | str s => rw [hg] at hp; simp [JSVal.finite?] at hp
    | undefined => rw [hg] at hp; simp [JSVal.finite?] at hp
  · intro h k hk
    obtain ⟨v, y, hg, hy⟩ := h k hk
    simp [axisPoint, hg, JSVal.finite?, hy]

/-- In `'ten'` mode `yPos` feeds the shared scale the unit value of the entry of
the axis. -/
theorem yPos_ten (scaleNice : Stat → ℚ → JSNum) (yUnit10 : JSNum → JSNum)
    (dims : List AxisDescriptor) (data : List HRow) (k : String) (v : ℚ)
    (hk : k ∈ dims.map AxisDescriptor.key) :
    yPos .ten scaleNice yUnit10 (stats data dims) k v
      = some (yUnit10 (unit10 (statEntry data k) v)) := by
  simp [yPos, objGet_stats, hk]

theorem yPos_ne_none (mode : DisplayMode) (scaleNice : Stat → ℚ → JSNum) (yUnit10 : JSNum → JSNum)
    (dims : List AxisDescriptor) (order : List String) (data : List HRow)
    (hord : ∀ k ∈ order, k ∈ dims.map AxisDescriptor.key) :
    ∀ k ∈ order, ∀ v, yPos mode scaleNice yUnit10 (stats data dims) k v ≠ none := by
  intro k hk v
  cases mode with
  | raw => simp [yPos]
  | ten => simp [yPos, objGet_stats, hord k hk]

theorem not_drawable_of_not_finite (gx : String → ℚ) (yp : String → ℚ → Option JSNum)
    (order : List String) (row : HRow) (k : String) (hk : k ∈ order)
    (hbad : Number.isFinite (row.get k) = false) : drawable gx yp order row = false := by
  by_contra hc
  have hd : drawable gx yp order row = true := by simpa using hc
  obtain ⟨v, y, hg, _⟩ := (drawable_iff gx yp order row).1 hd k hk
  rw [hg] at hbad
  simp [Number.isFinite] at hbad

/-! ## C2: a row is stroked whole or not at all -/

/-- C2: for every row list, display mode, drag positions and axis order made of
axis keys, `drawLines` runs to completion and the strokes it leaves on the
canvas are, in row order, the full polylines of exactly the rows whose value on
every axis of the order is finite and has a finite vertical position; the calls
issued for a row contain `stroke` exactly for such a row, and those of any other
row paint nothing; in particular a row with a non-finite value on some axis of
the order paints nothing, wherever that axis stands in the order. -/
theorem drawLines_strokes_exactly_valid_rows (mode : DisplayMode)
    (scaleNice : Stat → ℚ → JSNum) (yUnit10 : JSNum → JSNum) (pos : List (String × ℚ)) (width : ℚ)
    (dims : List AxisDescriptor) (order : List String) (data : List HRow)
    (hord : ∀ k ∈ order, k ∈ dims.map AxisDescriptor.key) :
    (∃ ops, renderLines mode scaleNice yUnit10 pos width dims order data = some ops ∧
      ∀ c : Canvas, (c.run ops).strokes
        = (data.filter (drawable (getX pos (xScale order width))
              (yPos mode scaleNice yUnit10 (stats data dims)) order)).map
            (fun r => segments (polyline (getX pos (xScale order width))
              (yPos mode scaleNice yUnit10 (stats data dims)) order r))) ∧
    (∀ row : HRow,
      (drawable (getX pos (xScale order width))
          (yPos mode scaleNice yUnit10 (stats data dims)) order row = true ↔
        ∀ k ∈ order, ∃ v y, row.get k = .num (.fin v) ∧
          yPos mode scaleNice yUnit10 (stats data dims) k v = some (.fin y)) ∧
      ∃ rops, rowOps (getX pos (xScale order width))
          (yPos mode scaleNice yUnit10 (stats data dims)) order row = some rops ∧
        (CanvasOp.stroke ∈ rops ↔
          drawable (getX pos (xScale order width))
            (yPos mode scaleNice yUnit10 (stats data dims)) order row = true) ∧
        (drawable (getX pos (xScale order width))
            (yPos mode scaleNice yUnit10 (stats data dims)) order row = false →
          ∀ c : Canvas, (c.run rops).strokes = c.strokes)) ∧
    (∀ (row : HRow) (k : String), k ∈ order → Number.isFinite (row.get k) = false →
      drawable (getX pos (xScale order width))
        (yPos mode scaleNice yUnit10 (stats data dims)) order row = false) := by
  have hyp := yPos_ne_none mode scaleNice yUnit10 dims order data hord
  refine ⟨?_, ?_, ?_⟩
  · obtain ⟨ops, hops, hrun⟩ := run_drawRows (getX pos (xScale order width))
      (yPos mode scaleNice yUnit10 (stats data dims)) order data hyp
    refine ⟨CanvasOp.clearRect :: ops, by simp only [renderLines, drawLines, hops], ?_⟩
    intro c
    have hclear : c.run (CanvasOp.clearRect :: ops)
        = Canvas.run { path := c.path, strokes := [] } ops := rfl
    rw [hclear, hrun]
    rfl
  · intro row
    refine ⟨drawable_iff _ _ order row, ?_⟩
    obtain ⟨rops, hrops, hstroke, hrun⟩ := run_rowOps (getX pos (xScale order width))
      (yPos mode scaleNice yUnit10 (stats data dims)) order row hyp
    refine ⟨rops, hrops, hstroke, ?_⟩
    intro hd c
    rw [hrun, hd]
    simp
  · intro row k hk hbad
    exact not_drawable_of_not_finite _ _ order row k hk hbad

/-- Witness for C2: the application's axis order over the two sample rows in
normalized mode; only the complete row is stroked. -/
theorem drawLines_strokes_exactly_valid_rows_witness :
    (∀ k ∈ appOrder, k ∈ appDims.map AxisDescriptor.key) ∧
    ∃ ops, renderLines .ten (fun _ _ => .nan) (fun u => u) [] 900 appDims appOrder sampleData
        = some ops ∧
      ∀ c : Canvas, (c.run ops).strokes
        = (sampleData.filter (drawable (getX [] (xScale appOrder 900))
              (yPos .ten (fun _ _ => .nan) (fun u => u) (stats sampleData appDims)) appOrder)).map
            (fun r => segments (polyline (getX [] (xScale appOrder 900))
              (yPos .ten (fun _ _ => .nan) (fun u => u) (stats sampleData appDims)) appOrder r)) :=
  ⟨by decide, (drawLines_strokes_exactly_valid_rows .ten (fun _ _ => .nan) (fun u => u) [] 900
    appDims appOrder sampleData (by decide)).1⟩

/-- The filter of the witness keeps the complete row only. -/
theorem sampleData_drawable :
    sampleData.filter (drawable (getX [] (xScale appOrder 900))
        (yPos .ten (fun _ _ => .nan) (fun u => u) (stats sampleData appDims)) appOrder)
      = [sampleRow "A" "R" (.fin 5)] := by
  have h1 : drawable (getX [] (xScale appOrder 900))
      (yPos .ten (fun _ _ => .nan) (fun u => u) (stats sampleData appDims)) appOrder
      (sampleRow "A" "R" (.fin 5)) = true := by
    rw [drawable_iff]
    intro k hk
    have hk' : k ∈ appDims.map AxisDescriptor.key := hk
    have hget : objGet (stats sampleData appDims) k = some (statEntry sampleData k) := by
      rw [objGet_stats, if_pos hk']
    have hval : ∀ k' ∈ appOrder, (sampleRow "A" "R" (.fin 5)).get k'
        = .num (.fin (statEntry sampleData k').min) := by decide
    exact ⟨(statEntry sampleData k).min, 0, hval k hk, by
      simp only [yPos, hget]
      rw [unit10_at_min _ (statEntry_min_le_max _ _)]⟩
  have h2 : drawable (getX [] (xScale appOrder 900))
      (yPos .ten (fun _ _ => .nan) (fun u => u) (stats sampleData appDims)) appOrder
      (sampleRow "B" "R" .nan) = false :=
    not_drawable_of_not_finite _ _ appOrder _ "score" (by decide) (by decide)
  have hdata : sampleData = [sampleRow "A" "R" (.fin 5), sampleRow "B" "R" .nan] := rfl
  conv_lhs => arg 2; rw [hdata]
  rw [List.filter_cons, if_pos h1, List.filter_cons, if_neg (by rw [h2]; simp), List.filter_nil]

/-! ## The sort behind the drag-release handler -/

theorem sortInsert_perm {α : Type} (cmp : α → α → ℚ) (a : α) (l : List α) :
    (sortInsert cmp a l).Perm (a :: l) := by
  induction l with
  | nil => exact List.Perm.refl _
  | cons b l ih =>
    by_cases h : cmp a b ≤ 0
    · simp only [sortInsert, if_pos h]
      exact List.Perm.refl _
    · simp only [sortInsert, if_neg h]
      exact (List.Perm.cons b ih).trans (List.Perm.swap a b l)

theorem arraySort_perm {α : Type} (cmp : α → α → ℚ) (l : List α) :
    (arraySort cmp l).Perm l := by
  induction l with
  | nil => exact List.Perm.refl _
  | cons a l ih =>
    simp only [arraySort]
    exact (sortInsert_perm cmp a _).trans (List.Perm.cons a ih)

theorem sortInsert_pairwise {α : Type} (f : α → ℚ) (a : α) (l : List α)
    (hl : l.Pairwise (fun x y => f x ≤ f y)) :
    (sortInsert (fun x y => f x - f y) a l).Pairwise (fun x y => f x ≤ f y) := by
  induction l with
  | nil => simp [sortInsert]
  | cons b l ih =>
    rw [List.pairwise_cons] at hl
    by_cases h : f a - f b ≤ 0
    · simp only [sortInsert, if_pos h]
      have hab : f a ≤ f b := sub_nonpos.1 h
      refine List.Pairwise.cons ?_ (List.Pairwise.cons hl.1 hl.2)
      intro y hy
      rcases List.mem_cons.1 hy with rfl | hy
      · exact hab
      · exact le_trans hab (hl.1 y hy)
    · simp only [sortInsert, if_neg h]
      have hba : f b ≤ f a := by
        have : 0 < f a - f b := not_le.1 h
        linarith
      refine List.Pairwise.cons ?_ (ih hl.2)
      intro y hy
      rcases List.mem_cons.1 ((sortInsert_perm _ a l).subset hy) with rfl | hy
      · exact hba
      · exact hl.1 y hy

theorem arraySort_pairwise {α : Type} (f : α → ℚ) (l : List α) :
    (arraySort (fun x y => f x - f y) l).Pairwise (fun x y => f x ≤ f y) := by
  induction l with
  | nil => simp [arraySort]
  | cons a l ih =>
    simp only [arraySort]
    exact sortInsert_pairwise f a _ ih

theorem sortInsert_filter {α : Type} (f : α → ℚ) (p : ℚ) (a : α) (l : List α) :
    (sortInsert (fun x y => f x - f y) a l).filter (fun x => decide (f x = p))
      = (a :: l).filter (fun x => decide (f x = p)) := by
  induction l with
  | nil => rfl
  | cons b l ih =>
    by_cases h : f a - f b ≤ 0
    · simp only [sortInsert, if_pos h]
    · simp only [sortInsert, if_neg h]
      have hne : f a ≠ f b := by
        intro heq
        apply h
        rw [heq, sub_self]
      rw [List.filter_cons, ih]
      by_cases hb : f b = p
      · have ha : f a ≠ p := fun ha => hne (ha.trans hb.symm)
        simp [List.filter_cons, ha, hb]
      · simp [List.filter_cons, hb]

theorem arraySort_filter {α : Type} (f : α → ℚ) (p : ℚ) (l : List α) :
    (arraySort (fun x y => f x - f y) l).filter (fun x => decide (f x = p))
      = l.filter (fun x => decide (f x = p)) := by
  induction l with
  | nil => rfl
  | cons a l ih =>
    simp only [arraySort]
    rw [sortInsert_filter, List.filter_cons, List.filter_cons, ih]

/-- A list sorted by a key is determined by its sublists of equal key: two
sorted lists with the same elements of each key, in the same order, are equal. -/
theorem sorted_stable_unique {α : Type} (f : α → ℚ) (l₁ l₂ : List α)
    (h₁ : l₁.Pairwise (fun x y => f x ≤ f y)) (h₂ : l₂.Pairwise (fun x y => f x ≤ f y))
    (h : ∀ p : ℚ, l₁.filter (fun x => decide (f x = p)) = l₂.filter (fun x => decide (f x = p))) :
    l₁ = l₂ := by
  induction l₁ generalizing l₂ with
  | nil =>
    cases l₂ with
    | nil => rfl
    | cons b t =>
      have := h (f b)
      simp [List.filter_cons] at this
  | cons a t₁ ih =>
    cases l₂ with
    | nil =>
      have := h (f a)
      simp [List.filter_cons] at this
    | cons b t₂ =>
      rw [List.pairwise_cons] at h₁ h₂
      have key : ∀ p : ℚ,
          (if f a = p then a :: t₁.filter (fun x => decide (f x = p))
            else t₁.filter (fun x => decide (f x = p)))
          = (if f b = p then b :: t₂.filter (fun x => decide (f x = p))
            else t₂.filter (fun x => decide (f x = p))) := by
        intro p
        have := h p
        simpa [List.filter_cons] using this
      have hab : f a = f b := by
        by_contra hne
        have ha := key (f a)
        rw [if_pos rfl, if_neg (fun h' => hne h'.symm)] at ha
        have hmem_a : a ∈ t₂ := by
          have : a ∈ t₂.filter (fun x => decide (f x = f a)) := by
            rw [← ha]
            exact List.mem_cons_self _ _
          exact (List.mem_filter.1 this).1
        have hb := key (f b)
        rw [if_neg hne, if_pos rfl] at hb
        have hmem_b : b ∈ t₁ := by
          have : b ∈ t₁.filter (fun x => decide (f x = f b)) := by
            rw [hb]
            exact List.mem_cons_self _ _
          exact (List.mem_filter.1 this).1
        exact hne (le_antisymm (h₁.1 b hmem_b) (h₂.1 a hmem_a))
      have hhead := key (f a)
      rw [if_pos rfl, if_pos hab.symm] at hhead
      have heq : a = b := (List.cons.inj hhead).1
      have htail : t₁ = t₂ := by
        apply ih t₂ h₁.2 h₂.2
        intro p
        have hp := key p
        by_cases hpa : f a = p
        · rw [if_pos hpa, if_pos (hab ▸ hpa)] at hp
          exact (List.cons.inj hp).2
        · rw [if_neg hpa, if_neg (hab ▸ hpa)] at hp
          exact hp
      rw [heq, htail]

/-! ## The layout scale -/

theorem ordinalDomain_nodup (ks acc : List String) (h : (acc ++ ks).Nodup) :
    ordinalDomain ks acc = acc ++ ks := by
  induction ks generalizing acc with
  | nil => simp [ordinalDomain]
  | cons k ks ih =>
    have hk : k ∉ acc := by
      intro hmem
      have := List.nodup_append.1 h
      exact this.2.2 hmem (List.mem_cons_self _ _)
    have h' : ((acc ++ [k]) ++ ks).Nodup := by
      rw [List.append_assoc]
      exact h
    simp only [ordinalDomain, if_neg hk]
    rw [ih (acc ++ [k]) h', List.append_assoc]
    rfl

theorem domainIndex_getElem (l : List String) (hl : l.Nodup) (i : Nat) (hi : i < l.length) :
    domainIndex l[i] l = i := by
  induction l generalizing i with
  | nil => simp at hi
  | cons d ds ih =>
    rw [List.nodup_cons] at hl
    cases i with
    | zero => simp [domainIndex]
    | succ j =>
      have hj : j < ds.length := by simpa using hi
      have hne : d ≠ ds[j] := by
        intro heq
        apply hl.1
        rw [heq]
        exact List.getElem_mem _
      simp only [List.getElem_cons_succ, domainIndex, if_neg hne]
      rw [ih hl.2 j hj]

/-- The layout positions of distinct axes are evenly spaced from `margin.left`
to `width - margin.right`: axis number `i` of `n ≥ 2` stands at
`70 + i * (width - 100) / (n - 1)`, and a single axis in the middle. -/
theorem xScale_evenly_spaced (order : List String) (width : ℚ) (hnd : order.Nodup)
    (i : Nat) (hi : i < order.length) :
    xScale order width order[i]
      = if order.length = 1 then 70 + (width - 100) / 2
        else 70 + (i : ℚ) * ((width - 100) / ((order.length : ℚ) - 1)) := by
  have hdom : ordinalDomain order [] = order := by
    have := ordinalDomain_nodup order [] (by simpa using hnd)
    simpa using this
  have hidx := domainIndex_getElem order hnd i hi
  unfold xScale
  simp only [hdom, hidx]
  by_cases h1 : order.length = 1
  · have hi0 : i = 0 := by omega
    rw [if_pos h1, h1, hi0]
    norm_num
    ring
  · rw [if_neg h1]
    have h2 : 2 ≤ order.length := by omega
    have h2q : (2 : ℚ) ≤ (order.length : ℚ) := by exact_mod_cast h2
    have hpos : (0 : ℚ) < (order.length : ℚ) - 1 := by linarith
    rw [max_eq_right (by linarith)]
    field_simp
    ring

/-! ## C3: drag release sorts the axes stably by final position -/

/-- C3: for every axis order, drag-position map and width, the order given to
`setOrder` on drag release is a permutation of the old order, is sorted by
non-decreasing final position, and for each position lists the axes at that
position in their old relative order; it is the only list that is sorted and
keeps the axes of each position in their old order.  The final position of an
axis is its transient position when the drag-position map has one (while
dragging, the pointer position clamped to the chart), and otherwise its layout
position, evenly spaced over the distinct axes of the order. -/
theorem dragEnd_is_stable_sort (order : List String) (pos : List (String × ℚ)) (width : ℚ) :
    (dragEnd order pos width).Perm order ∧
    (dragEnd order pos width).Pairwise
      (fun a b => getX pos (xScale order width) a ≤ getX pos (xScale order width) b) ∧
    (∀ p : ℚ,
      (dragEnd order pos width).filter (fun k => decide (getX pos (xScale order width) k = p))
        = order.filter (fun k => decide (getX pos (xScale order width) k = p))) ∧
    (∀ l : List String,
      l.Pairwise
        (fun a b => getX pos (xScale order width) a ≤ getX pos (xScale order width) b) →
      (∀ p : ℚ, l.filter (fun k => decide (getX pos (xScale order width) k = p))
        = order.filter (fun k => decide (getX pos (xScale order width) k = p))) →
      l = dragEnd order pos width) ∧
    (∀ (k : String) (p : ℚ), objGet pos k = some p →
      getX pos (xScale order width) k = p) ∧
    (∀ (k : String) (eventX : ℚ),
      getX (dragMove pos width k eventX) (xScale order width) k
        = max 70 (min (width - 30) eventX)) ∧
    (order.Nodup → ∀ (i : Nat) (hi : i < order.length), objGet pos order[i] = none →
      getX pos (xScale order width) order[i]
        = if order.length = 1 then 70 + (width - 100) / 2
          else 70 + (i : ℚ) * ((width - 100) / ((order.length : ℚ) - 1))) := by
  refine ⟨arraySort_perm _ order, arraySort_pairwise (getX pos (xScale order width)) order,
    fun p => arraySort_filter (getX pos (xScale order width)) p order, ?_, ?_, ?_, ?_⟩
  · intro l hl hf
    apply sorted_stable_unique (getX pos (xScale order width)) l _ hl
      (arraySort_pairwise (getX pos (xScale order width)) order)
    intro p
    rw [hf p]
    exact (arraySort_filter (getX pos (xScale order width)) p order).symm
  · intro k p hk
    simp [getX, hk]
  · intro k eventX
    simp [getX, dragMove, objGet_objSet_same]
  · intro hnd i hi hnone
    simp only [getX, hnone]
    exact xScale_evenly_spaced order width hnd i hi

/-- A drag release on three axes laid out at `70`, `520`, `970`: `c` was dragged
to `100`, between `a` and `b`. -/
theorem dragEnd_example :
    dragEnd ["a", "b", "c"] [("c", 100)] 1000 = ["a", "c", "b"] := by
  have hdom : ordinalDomain ["a", "b", "c"] [] = ["a", "b", "c"] := by decide
  have hxa : getX [("c", 100)] (xScale ["a", "b", "c"] 1000) "a" = 70 := by
    have hi : domainIndex "a" ["a", "b", "c"] = 0 := by decide
    have hg : objGet [("c", (100 : ℚ))] "a" = none := by simp [objGet]
    simp only [getX, hg, xScale, hdom, hi]
    norm_num
  have hxb : getX [("c", 100)] (xScale ["a", "b", "c"] 1000) "b" = 520 := by
    have hi : domainIndex "b" ["a", "b", "c"] = 1 := by decide
    have hg : objGet [("c", (100 : ℚ))] "b" = none := by simp [objGet]
    simp only [getX, hg, xScale, hdom, hi]
    norm_num
  have hxc : getX [("c", 100)] (xScale ["a", "b", "c"] 1000) "c" = 100 := by
    simp [getX, objGet]
  simp only [dragEnd, arraySort, sortInsert, hxa, hxb, hxc]
  norm_num
  simp only [sortInsert, hxa, hxc]
  norm_num

/-- While dragging, the transient position of the dragged axis stays within the
horizontal extent of the chart. -/
theorem dragMove_clamped (pos : List (String × ℚ)) (x : String → ℚ) (width : ℚ) (k : String)
    (eventX : ℚ) (hw : 100 ≤ width) :
    70 ≤ getX (dragMove pos width k eventX) x k ∧
      getX (dragMove pos width k eventX) x k ≤ width - 30 := by
  have h : getX (dragMove pos width k eventX) x k = max 70 (min (width - 30) eventX) := by
    simp [getX, dragMove, objGet_objSet_same]
  rw [h]
  refine ⟨le_max_left _ _, max_le (by linarith) (min_le_left _ _)⟩

/-! ## C6: the region toggle -/

/-- C6: `toggle(r)` emits `{World}` when `r` is `"World"`; otherwise, with `T` the
selection without `"World"` and with the membership of `r` flipped, it emits
`{World}` when `T` is empty and `T` when it is not.  The emitted selection is
never empty, and when it contains `"World"` it is `{World}`. -/
theorem toggle_emits (selected : Finset String) (r : String) :
    (r = "World" → toggle selected r = {"World"}) ∧
    (r ≠ "World" → ∃ T : Finset String,
      (∀ x, x ∈ T ↔ (x ≠ r ∧ x ≠ "World" ∧ x ∈ selected) ∨ (x = r ∧ r ∉ selected)) ∧
      (T = ∅ → toggle selected r = {"World"}) ∧
      (T ≠ ∅ → toggle selected r = T)) ∧
    (toggle selected r).Nonempty ∧
    ("World" ∈ toggle selected r → toggle selected r = {"World"}) := by
  by_cases hr : r = "World"
  · have h : toggle selected r = {"World"} := by simp [toggle, ALL, hr]
    refine ⟨fun _ => h, fun hne => absurd hr hne, ?_, fun _ => h⟩
    rw [h]
    exact Finset.singleton_nonempty _
  · have hmem : ∀ x, x ∈ (if r ∈ selected.erase "World" then (selected.erase "World").erase r
          else insert r (selected.erase "World")) ↔
        (x ≠ r ∧ x ≠ "World" ∧ x ∈ selected) ∨ (x = r ∧ r ∉ selected) := by
      intro x
      by_cases hin : r ∈ selected
      · have hin' : r ∈ selected.erase "World" := Finset.mem_erase.2 ⟨hr, hin⟩
        rw [if_pos hin']
        simp only [Finset.mem_erase]
        constructor
        · rintro ⟨h1, h2, h3⟩
          exact Or.inl ⟨h1, h2, h3⟩
        · rintro (⟨h1, h2, h3⟩ | ⟨_, h2⟩)
          · exact ⟨h1, h2, h3⟩
          · exact absurd hin h2
      · have hin' : r ∉ selected.erase "World" := fun h => hin (Finset.mem_erase.1 h).2
        rw [if_neg hin']
        simp only [Finset.mem_insert, Finset.mem_erase]
        constructor
        · rintro (h1 | ⟨h2, h3⟩)
          · exact Or.inr ⟨h1, hin⟩
          · refine Or.inl ⟨?_, h2, h3⟩
            intro hx
            exact hin (hx ▸ h3)
        · rintro (⟨_, h2, h3⟩ | ⟨h1, _⟩)
          · exact Or.inr ⟨h2, h3⟩
          · exact Or.inl h1
    have hnw : "World" ∉ (if r ∈ selected.erase "World" then (selected.erase "World").erase r
          else insert r (selected.erase "World")) := by
      rw [hmem]
      rintro (⟨_, h2, _⟩ | ⟨h1, _⟩)
      · exact h2 rfl
      · exact hr h1.symm
    have hempty : toggle selected r = {"World"} ∨
        (toggle selected r = (if r ∈ selected.erase "World" then (selected.erase "World").erase r
          else insert r (selected.erase "World")) ∧
        (if r ∈ selected.erase "World" then (selected.erase "World").erase r
          else insert r (selected.erase "World")) ≠ ∅) := by
      by_cases he : (if r ∈ selected.erase "World" then (selected.erase "World").erase r
          else insert r (selected.erase "World")) = ∅
      · left
        simp only [toggle, ALL, if_neg hr]
        rw [he]
        simp
      · right
        refine ⟨?_, he⟩
        simp only [toggle, ALL, if_neg hr]
        rw [if_neg]
        rwa [Finset.card_eq_zero]
    refine ⟨fun h => absurd h hr, fun _ => ⟨_, hmem, ?_, ?_⟩, ?_, ?_⟩
    · intro he
      rcases hempty with h | ⟨_, h⟩
      · exact h
      · exact absurd he h
    · intro hne
      rcases hempty with h | ⟨h, _⟩
      · exfalso
        apply hne
        have : toggle selected r = {"World"} := h
        simp only [toggle, ALL, if_neg hr] at this
        by_contra hc
        rw [if_neg (by rwa [Finset.card_eq_zero])] at this
        exact hnw (this ▸ Finset.mem_singleton_self _)
      · exact h
    · rcases hempty with h | ⟨h, hne⟩
      · rw [h]
        exact Finset.singleton_nonempty _
      · rw [h]
        exact Finset.nonempty_iff_ne_empty.2 hne
    · intro hw
      rcases hempty with h | ⟨h, _⟩
      · exact h
      · rw [h] at hw
        exact absurd hw hnw

/-- Selecting `"World"` after two regions gives `{World}`; deselecting the last
region gives `{World}`; selecting a region while `"World"` is selected leaves
that region alone. -/
theorem toggle_examples :
    toggle {"Asia", "Africa"} "World" = {"World"} ∧
    toggle {"Asia"} "Asia" = {"World"} ∧
    toggle {"World"} "Asia" = {"Asia"} ∧
    toggle {"Asia"} "Africa" = {"Africa", "Asia"} := by
  decide

/-! ## C7: the rows given to the chart -/

/-- C7: when the selection contains `"World"` the chart receives the whole row
list; otherwise it receives the rows whose region is selected, each as often as
it occurs and in the original order. -/
theorem filtered_rows (data : List HRow) (selected : Finset String) :
    ("World" ∈ selected → filtered data selected = data) ∧
    ("World" ∉ selected →
      filtered data selected = data.filter (fun d => decide (d.region ∈ selected)) ∧
      (filtered data selected).Sublist data ∧
      ∀ d, d ∈ filtered data selected ↔ d ∈ data ∧ d.region ∈ selected) := by
  constructor
  · intro h
    simp [filtered, h]
  · intro h
    have hf : filtered data selected = data.filter (fun d => decide (d.region ∈ selected)) := by
      simp [filtered, h]
    refine ⟨hf, ?_, ?_⟩
    · rw [hf]
      exact List.filter_sublist _
    · intro d
      rw [hf]
      simp [List.mem_filter]

/-- Filtering the sample rows of two regions by one of them. -/
theorem filtered_example :
    filtered [sampleRow "A" "Asia" (.fin 5), sampleRow "B" "Africa" (.fin 4),
        sampleRow "C" "Asia" (.fin 3)] {"Asia"}
      = [sampleRow "A" "Asia" (.fin 5), sampleRow "C" "Asia" (.fin 3)] := by
  decide

/-! ## Association lists -/

theorem objGet_some_mem {β : Type} (l : List (String × β)) (k : String) (v : β)
    (h : objGet l k = some v) : (k, v) ∈ l := by
  induction l with
  | nil => simp [objGet] at h
  | cons e rest ih =>
    obtain ⟨k', v'⟩ := e
    by_cases hk : k' = k
    · simp only [objGet, if_pos hk, Option.some.injEq] at h
      rw [hk, h]
      exact List.mem_cons_self _ _
    · simp only [objGet, if_neg hk] at h
      exact List.mem_cons_of_mem _ (ih h)

theorem objGet_of_mem_nodup {β : Type} (l : List (String × β)) (k : String) (v : β)
    (hnd : (l.map Prod.fst).Nodup) (h : (k, v) ∈ l) : objGet l k = some v := by
  induction l with
  | nil => simp at h
  | cons e rest ih =>
    obtain ⟨k', v'⟩ := e
    rw [List.map_cons, List.nodup_cons] at hnd
    rcases List.mem_cons.1 h with heq | hmem
    · injection heq with h1 h2
      simp [objGet, h1, h2]
    · have hne : k' ≠ k := by
        intro hk
        apply hnd.1
        rw [hk]
        exact List.mem_map.2 ⟨(k, v), hmem, rfl⟩
      simp only [objGet, if_neg hne]
      exact ih hnd.2 hmem

theorem lastValue_some_mem {β : Type} (l : List (String × β)) (k : String) (v : β)
    (h : lastValue k l = some v) : (k, v) ∈ l := by
  induction l with
  | nil => simp [lastValue] at h
  | cons e rest ih =>
    cases hr : lastValue k rest with
    | some w =>
      simp only [lastValue, hr, Option.some.injEq] at h
      exact List.mem_cons_of_mem _ (ih (by rw [hr, h]))
    | none =>
      simp only [lastValue, hr] at h
      by_cases hk : e.1 = k
      · rw [if_pos hk] at h
        injection h with h
        have : e = (k, v) := Prod.ext hk h
        rw [this]
        exact List.mem_cons_self _ _
      · rw [if_neg hk] at h
        cases h

theorem lastValue_of_mem_nodup {β : Type} (l : List (String × β)) (k : String) (v : β)
    (hnd : (l.map Prod.fst).Nodup) (h : (k, v) ∈ l) : lastValue k l = some v := by
  induction l with
  | nil => simp at h
  | cons e rest ih =>
    rw [List.map_cons, List.nodup_cons] at hnd
    rcases List.mem_cons.1 h with heq | hmem
    · have hr : lastValue k rest = none := by
        cases hc : lastValue k rest with
        | none => rfl
        | some w =>
          exfalso
          apply hnd.1
          rw [← heq]
          exact List.mem_map.2 ⟨(k, w), lastValue_some_mem rest k w hc, rfl⟩
      subst heq
      simp [lastValue, hr]
    · simp [lastValue, ih hnd.2 hmem]

/-- Lookup after setting the entries of `l` in order: the last entry of `l`
with the key wins, else the earlier content. -/
theorem objGet_foldl_objSet {β : Type} (l : List (String × β)) (m : List (String × β))
    (k : String) :
    objGet (l.foldl (fun m e => objSet m e.1 e.2) m) k
      = match lastValue k l with
        | some v => some v
        | none => objGet m k := by
  induction l generalizing m with
  | nil => simp [lastValue]
  | cons e rest ih =>
    rw [List.foldl_cons, ih]
    cases hr : lastValue k rest with
    | some w => simp [lastValue, hr]
    | none =>
      by_cases hk : e.1 = k
      · subst hk
        simp [lastValue, hr, objGet_objSet_same]
      · simp [lastValue, hr, hk, objGet_objSet_other _ _ _ _ hk]

/-- The map of `pickFlex` sends a normalized name to the last header with it. -/
theorem objGet_normMap (row : CsvRow) (n : String) :
    objGet (normMap row) n = lastHeader row n := by
  unfold normMap lastHeader
  rw [objGet_foldl_objSet]
  cases lastValue n (row.map (fun p => (norm p.1, p.1))) <;> simp [objGet]

/-- A header found by `lastHeader` is a header of the row with that normalized
name, and the row holds a value under it. -/
theorem lastHeader_some (row : CsvRow) (n k : String) (h : lastHeader row n = some k) :
    norm k = n ∧ ∃ v, objGet row k = some v := by
  have hmem := lastValue_some_mem _ n k h
  rw [List.mem_map] at hmem
  obtain ⟨p, hp, heq⟩ := hmem
  injection heq with h1 h2
  refine ⟨by rw [← h2, h1], ?_⟩
  rw [← h2]
  clear h h1 h2
  induction row with
  | nil => simp at hp
  | cons e rest ih =>
    obtain ⟨k', v'⟩ := e
    by_cases hk : k' = p.1
    · exact ⟨v', by simp [objGet, hk]⟩
    · rcases List.mem_cons.1 hp with heq | hmem
      · exact absurd (by rw [heq]) hk
      · obtain ⟨v, hv⟩ := ih hmem
        exact ⟨v, by simp [objGet, hk, hv]⟩

/-! ## The two passes of `pickFlex` -/

theorem pickExact_none_iff (row : CsvRow) (cands : List String) :
    pickExact row cands = none ↔ ∀ c ∈ cands, exactMiss row c := by
  induction cands with
  | nil => simp [pickExact]
  | cons c cs ih =>
    cases hg : objGet row c with
    | none =>
      simp only [pickExact, hg, ih, List.mem_cons, forall_eq_or_imp, exactMiss, true_or, true_and]
    | some v =>
      by_cases hv : v = ""
      · subst hv
        simp only [pickExact, hg, ih, List.mem_cons, forall_eq_or_imp, exactMiss, or_true,
          true_and, ne_eq, not_true_eq_false, if_false]
      · simp [pickExact, hg, hv, exactMiss]

theorem pickExact_some_ne (row : CsvRow) (cands : List String) (v : String)
    (h : pickExact row cands = some v) : v ≠ "" := by
  induction cands with
  | nil => simp [pickExact] at h
  | cons c cs ih =>
    cases hg : objGet row c with
    | none =>
      simp only [pickExact, hg] at h
      exact ih h
    | some w =>
      by_cases hw : w = ""
      · simp only [pickExact, hg, hw, ne_eq, not_true_eq_false, if_false] at h
        exact ih h
      · simp only [pickExact, hg, ne_eq, hw, not_false_eq_true, if_true,
          Option.some.injEq] at h
        rw [← h]
        exact hw

theorem pickExact_first_hit (row : CsvRow) (pre : List String) (c : String)
    (post : List String) (v : String) (hc : objGet row c = some v) (hv : v ≠ "")
    (hpre : ∀ c' ∈ pre, exactMiss row c') : pickExact row (pre ++ c :: post) = some v := by
  induction pre with
  | nil => simp [pickExact, hc, hv]
  | cons c' pre ih =>
    have ih' := ih (fun x hx => hpre x (List.mem_cons_of_mem _ hx))
    show pickExact row (c' :: (pre ++ c :: post)) = some v
    rcases hpre c' (List.mem_cons_self _ _) with h | h
    · simp only [pickExact, h, ih']
    · simp only [pickExact, h, ne_eq, not_true_eq_false, if_false, ih']

theorem pickNorm_none_iff (row : CsvRow) (cands : List String) :
    pickNorm row (normMap row) cands = none ↔ ∀ c ∈ cands, normMiss row c := by
  induction cands with
  | nil => simp [pickNorm]
  | cons c cs ih =>
    simp only [List.mem_cons, forall_eq_or_imp]
    cases hl : lastHeader row (norm c) with
    | none =>
      have hm : normMiss row c := by
        intro k hk
        rw [hl] at hk
        cases hk
      simp only [pickNorm, objGet_normMap, hl, ih]
      exact ⟨fun h => ⟨hm, h⟩, fun h => h.2⟩
    | some k =>
      obtain ⟨_, v, hv⟩ := lastHeader_some row _ k hl
      by_cases hk : k = ""
      · have hm : normMiss row c := by
          intro k' hk'
          rw [hl] at hk'
          injection hk' with hk'
          exact Or.inl (hk' ▸ hk)
        simp only [pickNorm, objGet_normMap, hl, hk, ne_eq, not_true_eq_false, if_false, ih]
        exact ⟨fun h => ⟨hm, h⟩, fun h => h.2⟩
      · by_cases hve : v = ""
        · have hm : normMiss row c := by
            intro k' hk'
            rw [hl] at hk'
            injection hk' with hk'
            exact Or.inr (by rw [← hk', hv, hve])
          simp only [pickNorm, objGet_normMap, hl, ne_eq, hk, not_false_eq_true, if_true, hv,
            hve, not_true_eq_false, if_false, ih]
          exact ⟨fun h => ⟨hm, h⟩, fun h => h.2⟩
        · have hm : ¬ normMiss row c := by
            intro h
            rcases h k hl with h | h
            · exact hk h
            · rw [hv] at h
              injection h with h
              exact hve h
          simp only [pickNorm, objGet_normMap, hl, ne_eq, hk, not_false_eq_true, if_true, hv,
            hve]
          simp [hm]

theorem pickNorm_some_ne (row : CsvRow) (map : List (String × String)) (cands : List String)
    (v : String) (h : pickNorm row map cands = some v) : v ≠ "" := by
  induction cands with
  | nil => simp [pickNorm] at h
  | cons c cs ih =>
    cases hm : objGet map (norm c) with
    | none =>
      simp only [pickNorm, hm] at h
      exact ih h
    | some k =>
      by_cases hk : k = ""
      · simp only [pickNorm, hm, hk, ne_eq, not_true_eq_false, if_false] at h
        exact ih h
      · cases hg : objGet row k with
        | none =>
          simp only [pickNorm, hm, ne_eq, hk, not_false_eq_true, if_true, hg] at h
          exact ih h
        | some w =>
          by_cases hw : w = ""
          · simp only [pickNorm, hm, ne_eq, hk, not_false_eq_true, if_true, hg, hw,
              not_true_eq_false, if_false] at h
            exact ih h
          · simp only [pickNorm, hm, ne_eq, hk, not_false_eq_true, if_true, hg, hw,
              Option.some.injEq] at h
            rw [← h]
            exact hw

theorem pickNorm_first_hit (row : CsvRow) (pre : List String) (c : String)
    (post : List String) (k v : String) (hl : lastHeader row (norm c) = some k) (hk : k ≠ "")
    (hg : objGet row k = some v) (hv : v ≠ "") (hpre : ∀ c' ∈ pre, normMiss row c') :
    pickNorm row (normMap row) (pre ++ c :: post) = some v := by
  induction pre with
  | nil => simp [pickNorm, objGet_normMap, hl, hk, hg, hv]
  | cons c' pre ih =>
    have ih' := ih (fun x hx => hpre x (List.mem_cons_of_mem _ hx))
    have hmiss : pickNorm row (normMap row) [c'] = none :=
      (pickNorm_none_iff row [c']).2 (by
        intro x hx
        rw [List.mem_singleton] at hx
        rw [hx]
        exact hpre c' (List.mem_cons_self _ _))
    show pickNorm row (normMap row) (c' :: (pre ++ c :: post)) = some v
    cases hm : objGet (normMap row) (norm c') with
    | none => simp only [pickNorm, hm, ih']
    | some k' =>
      by_cases hk' : k' = ""
      · simp only [pickNorm, hm, hk', ne_eq, not_true_eq_false, if_false, ih']
      · cases hg' : objGet row k' with
        | none => simp only [pickNorm, hm, ne_eq, hk', not_false_eq_true, if_true, hg', ih']
        | some w =>
          by_cases hw : w = ""
          · simp only [pickNorm, hm, ne_eq, hk', not_false_eq_true, if_true, hg', hw,
              not_true_eq_false, if_false, ih']
          · simp [pickNorm, hm, hk', hg', hw] at hmiss

/-- The result of `pickFlex` is empty exactly when both passes find nothing. -/
theorem pickFlex_eq_empty_iff (row : CsvRow) (cands : List String) :
    pickFlex row cands = "" ↔
      (∀ c ∈ cands, exactMiss row c) ∧ (∀ c ∈ cands, normMiss row c) := by
  rw [← pickExact_none_iff, ← pickNorm_none_iff]
  unfold pickFlex
  cases he : pickExact row cands with
  | some v =>
    have := pickExact_some_ne row cands v he
    simp [this]
  | none =>
    cases hn : pickNorm row (normMap row) cands with
    | some v =>
      have := pickNorm_some_ne row _ cands v hn
      simp [this]
    | none => simp

/-! ## C8: column resolution -/

/-- C8 fails as stated.  First row: the header `SCORE` holds `5` and equals the
candidate `Score` after normalization, yet `pickFlex` returns the empty string,
because the map keeps only the last header `score` of that normalized name and
its value is empty.  Second row: the empty header holds `5` and equals the
candidate `1` after normalization, yet the result is empty, the empty header
being falsy.  Third row: `Ladder score` holds `7.5` and there is no `Score`
header, yet the score resolves to `3`, the value under the earlier candidate
`Happiness Score`. -/
theorem pickFlex_counterexample :
    (pickFlex [("SCORE", "5"), ("score", "")] ["Score"] = "" ∧
      ∃ c ∈ ["Score"], ∃ p ∈ [("SCORE", "5"), ("score", "")],
        norm p.1 = norm c ∧ p.2 ≠ "") ∧
    (pickFlex [("", "5")] ["1"] = "" ∧ norm "" = norm "1") ∧
    (objGet [("Happiness Score", "3"), ("Ladder score", "7.5")] "Score" = none ∧
      pickFlex [("Happiness Score", "3"), ("Ladder score", "7.5")] COLS.score = "3") := by
  refine ⟨⟨by decide, "Score", by decide, ("SCORE", "5"), by decide, by decide, by decide⟩,
    by decide, by decide, by decide⟩

/-- C8 (amended): `pickFlex` returns the value under the first candidate that is
a header of the row with a non-empty value.  When there is none, it returns the
value under the last header sharing the normalized name of a candidate, for the
first candidate where that header is not the empty header and holds a non-empty
value.  It returns the empty string exactly when both passes find nothing; for a
row whose headers are non-empty and have pairwise distinct normalized names,
that is exactly when every header matching a candidate, exactly or after
normalization, holds the empty string.  A row holding `7.5` under
`Ladder score` and nothing under `Score` and `Happiness Score` resolves the
score to `7.5`. -/
theorem pickFlex_resolution (row : CsvRow) (cands : List String) :
    (∀ pre c post v, cands = pre ++ c :: post → objGet row c = some v → v ≠ "" →
      (∀ c' ∈ pre, exactMiss row c') → pickFlex row cands = v) ∧
    ((∀ c ∈ cands, exactMiss row c) →
      ∀ pre c post k v, cands = pre ++ c :: post → lastHeader row (norm c) = some k →
        k ≠ "" → objGet row k = some v → v ≠ "" → (∀ c' ∈ pre, normMiss row c') →
        pickFlex row cands = v) ∧
    (pickFlex row cands = "" ↔
      (∀ c ∈ cands, exactMiss row c) ∧ (∀ c ∈ cands, normMiss row c)) ∧
    ((row.map (fun p => norm p.1)).Nodup → (∀ p ∈ row, p.1 ≠ "") →
      (pickFlex row cands = "" ↔
        ∀ c ∈ cands, ∀ p ∈ row, (p.1 = c ∨ norm p.1 = norm c) → p.2 = "")) ∧
    (objGet row "Ladder score" = some "7.5" → exactMiss row "Score" →
      exactMiss row "Happiness Score" →
      pickFlex row COLS.score = "7.5" ∧ pickNumFlex row COLS.score = .fin (15 / 2)) := by
  refine ⟨?_, ?_, pickFlex_eq_empty_iff row cands, ?_, ?_⟩
  · intro pre c post v hc hg hv hpre
    unfold pickFlex
    rw [hc, pickExact_first_hit row pre c post v hg hv hpre]
  · intro hex pre c post k v hc hl hk hg hv hpre
    unfold pickFlex
    rw [(pickExact_none_iff row cands).2 hex]
    simp only
    rw [hc, pickNorm_first_hit row pre c post k v hl hk hg hv hpre]
  · intro hnd hne
    have hkeys : (row.map Prod.fst).Nodup := by
      have h : row.map (fun p => norm p.1) = (row.map Prod.fst).map norm := by
        rw [List.map_map]
        rfl
      rw [h] at hnd
      exact List.Nodup.of_map _ hnd
    have hnd' : ((row.map (fun p => (norm p.1, p.1))).map Prod.fst).Nodup := by
      rw [List.map_map]
      exact hnd
    rw [pickFlex_eq_empty_iff]
    constructor
    · rintro ⟨_, hnorm⟩ c hc p hp hmatch
      have hn : norm p.1 = norm c := by
        rcases hmatch with h | h
        · rw [h]
        · exact h
      have hl : lastHeader row (norm c) = some p.1 :=
        lastValue_of_mem_nodup _ _ _ hnd' (List.mem_map.2 ⟨p, hp, by rw [hn]⟩)
      have hg : objGet row p.1 = some p.2 := objGet_of_mem_nodup row p.1 p.2 hkeys hp
      rcases hnorm c hc p.1 hl with h | h
      · exact absurd h (hne p hp)
      · rw [hg] at h
        injection h
    · intro h
      constructor
      · intro c hc
        cases hg : objGet row c with
        | none => exact Or.inl hg
        | some v =>
          have := h c hc (c, v) (objGet_some_mem row c v hg) (Or.inl rfl)
          simp only at this
          exact Or.inr (by rw [hg, this])
      · intro c hc k hl
        obtain ⟨hn, v, hv⟩ := lastHeader_some row _ k hl
        have := h c hc (k, v) (objGet_some_mem row k v hv) (Or.inr hn)
        simp only at this
        exact Or.inr (by rw [hv, this])
  · intro hl hs hh
    have hex : pickExact row COLS.score = some "7.5" :=
      pickExact_first_hit row ["Score", "Happiness Score"] "Ladder score" ["Happiness.Score"]
        "7.5" hl (by decide) (by
          intro c hc
          simp only [List.mem_cons, List.mem_singleton, List.not_mem_nil, or_false] at hc
          rcases hc with rfl | rfl
          · exact hs
          · exact hh)
    have hpick : pickFlex row COLS.score = "7.5" := by
      unfold pickFlex
      rw [hex]
    refine ⟨hpick, ?_⟩
    unfold pickNumFlex
    simp only [hpick]
    rw [if_neg (by decide)]
    have h : toNumber "7.5"
        = .fin ((if false then -1 else 1) * ((75 : Nat) : ℚ) * (10 : ℚ) ^ (-1 : Int)) := by
      rfl
    rw [h]
    norm_num

/-- The 2019-style row of the specification: `Ladder score` alone resolves the
score, also through the normalized pass when only the case of the header
differs. -/
theorem pickFlex_examples :
    pickFlex [("Country name", "Finland"), ("Ladder score", "7.5")] COLS.score = "7.5" ∧
    pickFlex [("country name", "Finland"), ("LADDER SCORE", "7.5")] COLS.score = "7.5" ∧
    pickFlex [("Country name", "Finland")] COLS.score = "" := by
  decide

/-! ## C9: numeric fields -/

/-- An unresolved field is `NaN`. -/
theorem pickNumFlex_of_empty (row : CsvRow) (cands : List String)
    (h : pickFlex row cands = "") : pickNumFlex row cands = .nan := by
  simp [pickNumFlex, h]

/-- C9, at the failing input: a score cell holding one space is resolved by
`pickFlex` to that space, which is not the empty string, and unary plus turns it
into the finite number `0`, not into `NaN`. -/
theorem pickNumFlex_blank_cell_is_zero :
    pickFlex [("Country", "Atlantis"), ("Score", " ")] COLS.score = " " ∧
    pickNumFlex [("Country", "Atlantis"), ("Score", " ")] COLS.score = .fin 0 ∧
    (loadRow [] [("Country", "Atlantis"), ("Score", " ")]).score = .fin 0 ∧
    Number.isFinite (.num (loadRow [] [("Country", "Atlantis"), ("Score", " ")]).score)
      = true := by
  decide

/-- Unary plus also accepts a hexadecimal literal, which is not a decimal
number. -/
theorem toNumber_hex : toNumber "0x10" = .fin 16 := by
  have h : toNumber "0x10"
      = .fin ((if false then -1 else 1) * ((16 : Nat) : ℚ) * (10 : ℚ) ^ (0 : Int)) := by
    rfl
  rw [h]
  norm_num

/-- Texts that are not numeric literals give `NaN`. -/
theorem toNumber_nan_examples :
    toNumber "abc" = .nan ∧ toNumber "1,5" = .nan ∧ toNumber "12px" = .nan ∧
    toNumber "." = .nan ∧ toNumber "1e" = .nan := by
  decide

theorem roundDecimal_fin_lt (negative : Bool) (m : Nat) (e : Int) (q : ℚ)
    (h : roundDecimal negative m e = .fin q) : |q| < (overflowThreshold : ℚ) := by
  have hsign : ∀ x : ℚ, |(if negative = true then (-1 : ℚ) else 1) * x| = |x| := by
    intro x
    cases negative <;> simp
  cases e with
  | ofNat k =>
    simp only [roundDecimal] at h
    by_cases hov : overflowThreshold ≤ m * 10 ^ k
    · simp [hov] at h
    · simp only [hov, decide_False, Bool.false_eq_true, if_false, JSNum.fin.injEq] at h
      rw [← h, mul_assoc, hsign]
      have hlt : m * 10 ^ k < overflowThreshold := not_le.1 hov
      have hc : ((m : ℚ) * (10 : ℚ) ^ (Int.ofNat k)) = ((m * 10 ^ k : Nat) : ℚ) := by
        push_cast
        simp
      rw [hc, abs_of_nonneg (by positivity)]
      exact_mod_cast hlt
  | negSucc k =>
    simp only [roundDecimal] at h
    by_cases hov : overflowThreshold * 10 ^ (k + 1) ≤ m
    · simp [hov] at h
    · simp only [hov, decide_False, Bool.false_eq_true, if_false, JSNum.fin.injEq] at h
      rw [← h, mul_assoc, hsign]
      have hlt : m < overflowThreshold * 10 ^ (k + 1) := not_le.1 hov
      have hltq : (m : ℚ) < (overflowThreshold : ℚ) * (10 : ℚ) ^ (k + 1) := by
        exact_mod_cast hlt
      have hpow : (0 : ℚ) < (10 : ℚ) ^ (k + 1) := by positivity
      have hc : ((m : ℚ) * (10 : ℚ) ^ (Int.negSucc k)) = (m : ℚ) / (10 : ℚ) ^ (k + 1) := by
        rw [zpow_negSucc, div_eq_mul_inv]
      rw [hc, abs_of_nonneg (by positivity), div_lt_iff₀ hpow]
      exact hltq

/-- A finite number read from a cell lies within the finite range. -/
theorem toNumber_fin_lt (s : String) (q : ℚ) (h : toNumber s = .fin q) :
    |q| < (overflowThreshold : ℚ) := by
  unfold toNumber at h
  simp only at h
  split at h
  · simp only [JSNum.fin.injEq] at h
    rw [← h, abs_zero]
    linarith [ten_lt_overflowThreshold]
  · split at h
    · exact roundDecimal_fin_lt _ _ _ _ h
    · split at h
      · cases h
      · split at h
        · exact roundDecimal_fin_lt _ _ _ _ h
        · cases h

/-- A finite numeric field of a loaded row lies within the finite range. -/
theorem pickNumFlex_fin_lt (row : CsvRow) (cands : List String) (q : ℚ)
    (h : pickNumFlex row cands = .fin q) : |q| < (overflowThreshold : ℚ) := by
  unfold pickNumFlex at h
  simp only at h
  split at h
  · cases h
  · exact toNumber_fin_lt _ q h

/-! ## C10: region backfill -/

theorem strOr_empty (a : String) : strOr a "" = a := by
  unfold strOr
  by_cases h : a = ""
  · rw [if_pos h, h]
  · rw [if_neg h]

theorem strOr_World_ne (a : String) : strOr a "World" ≠ "" := by
  unfold strOr
  by_cases h : a = ""
  · rw [if_pos h]
    decide
  · rw [if_neg h]
    exact h

/-- Every region stored in the reference map is non-empty. -/
theorem getRegionMap2015_ne (rows2015 : List CsvRow) (k g : String)
    (h : objGet (getRegionMap2015 rows2015) k = some g) : g ≠ "" := by
  unfold getRegionMap2015 at h
  rw [objGet_foldl_objSet] at h
  cases hl : lastValue k (rows2015.map regionMapRow) with
  | none =>
    rw [hl] at h
    simp [objGet] at h
  | some w =>
    rw [hl] at h
    simp only [Option.some.injEq] at h
    have hmem := lastValue_some_mem _ k w hl
    rw [List.mem_map] at hmem
    obtain ⟨d, _, hd⟩ := hmem
    have hw : w = (regionMapRow d).2 := by rw [hd]
    rw [← h, hw]
    exact strOr_World_ne _

theorem lastValue_append_hit {β : Type} (k : String) (pre : List (String × β))
    (e : String × β) (post : List (String × β)) (he : e.1 = k)
    (hpost : ∀ e' ∈ post, e'.1 ≠ k) : lastValue k (pre ++ e :: post) = some e.2 := by
  have hnone : lastValue k post = none := by
    induction post with
    | nil => rfl
    | cons x xs ih =>
      have hx := hpost x (List.mem_cons_self _ _)
      simp [lastValue, ih (fun e' he' => hpost e' (List.mem_cons_of_mem _ he')), hx]
  induction pre with
  | nil => simp [lastValue, hnone, he]
  | cons x xs ih =>
    show lastValue k (x :: (xs ++ e :: post)) = some e.2
    simp [lastValue, ih]

theorem lastValue_none {β : Type} (k : String) (l : List (String × β))
    (h : ∀ e ∈ l, e.1 ≠ k) : lastValue k l = none := by
  induction l with
  | nil => rfl
  | cons x xs ih =>
    have hx := h x (List.mem_cons_self _ _)
    simp [lastValue, ih (fun e he => h e (List.mem_cons_of_mem _ he)), hx]

/-- The entry of a reference row: its trimmed country, and its trimmed region
or `"World"` when that is empty. -/
theorem regionMapRow_eq (r : CsvRow) :
    regionMapRow r = (jsTrim (pickFlex r ["Country name", "Country"]),
      if jsTrim (pickFlex r ["Region"]) = "" then "World" else jsTrim (pickFlex r ["Region"])) := by
  simp only [regionMapRow, strOr_empty, COLS.region]
  rfl

/-- The reference map holds, for a country, the region of the last reference
row of that country. -/
theorem getRegionMap2015_hit (pre : List CsvRow) (r : CsvRow) (post : List CsvRow)
    (hpost : ∀ r' ∈ post, jsTrim (pickFlex r' ["Country name", "Country"])
      ≠ jsTrim (pickFlex r ["Country name", "Country"])) :
    objGet (getRegionMap2015 (pre ++ r :: post)) (jsTrim (pickFlex r ["Country name", "Country"]))
      = some (if jsTrim (pickFlex r ["Region"]) = "" then "World"
          else jsTrim (pickFlex r ["Region"])) := by
  unfold getRegionMap2015
  rw [objGet_foldl_objSet, List.map_append, List.map_cons,
    lastValue_append_hit _ _ (regionMapRow r) _ (by rw [regionMapRow_eq])
      (by
        intro e he
        rw [List.mem_map] at he
        obtain ⟨r', hr', rfl⟩ := he
        rw [regionMapRow_eq]
        exact hpost r' hr')]
  rw [regionMapRow_eq]

/-- The reference map has no entry for a country of no reference row. -/
theorem getRegionMap2015_miss (rows2015 : List CsvRow) (c : String)
    (h : ∀ r ∈ rows2015, jsTrim (pickFlex r ["Country name", "Country"]) ≠ c) :
    objGet (getRegionMap2015 rows2015) c = none := by
  unfold getRegionMap2015
  rw [objGet_foldl_objSet, lastValue_none c _ (by
    intro e he
    rw [List.mem_map] at he
    obtain ⟨r, hr, rfl⟩ := he
    rw [regionMapRow_eq]
    exact h r hr)]
  rfl

/-! ## Trimming -/

theorem dropWhile_head_not {α : Type} (p : α → Bool) (l : List α) (c : α)
    (h : (l.dropWhile p).head? = some c) : p c = false := by
  induction l with
  | nil => simp at h
  | cons x xs ih =>
    cases hx : p x with
    | true =>
      rw [List.dropWhile_cons, if_pos hx] at h
      exact ih h
    | false =>
      rw [List.dropWhile_cons, if_neg (by simp [hx])] at h
      simp only [List.head?_cons, Option.some.injEq] at h
      rw [← h]
      exact hx

theorem takeWhile_all {α : Type} (p : α → Bool) (l : List α) :
    ∀ c ∈ l.takeWhile p, p c = true := by
  induction l with
  | nil => simp
  | cons x xs ih =>
    intro c hc
    cases hx : p x with
    | true =>
      rw [List.takeWhile_cons, if_pos hx] at hc
      rcases List.mem_cons.1 hc with rfl | hc
      · exact hx
      · exact ih c hc
    | false =>
      rw [List.takeWhile_cons, if_neg (by simp [hx])] at hc
      simp at hc

/-- Trimming removes a run of white space at each end and nothing else; what is
left neither starts nor ends with white space. -/
theorem trimChars_spec (cs : List Char) :
    ∃ l r : List Char, cs = l ++ trimChars cs ++ r ∧
      (∀ c ∈ l, isStrWhiteSpace c = true) ∧ (∀ c ∈ r, isStrWhiteSpace c = true) ∧
      (∀ c, (trimChars cs).head? = some c → isStrWhiteSpace c = false) ∧
      (∀ c, (trimChars cs).getLast? = some c → isStrWhiteSpace c = false) := by
  have hsplit : cs = cs.takeWhile isStrWhiteSpace ++ cs.dropWhile isStrWhiteSpace :=
    (List.takeWhile_append_dropWhile isStrWhiteSpace cs).symm
  have hsplit' : (cs.dropWhile isStrWhiteSpace).reverse
      = (cs.dropWhile isStrWhiteSpace).reverse.takeWhile isStrWhiteSpace
        ++ (cs.dropWhile isStrWhiteSpace).reverse.dropWhile isStrWhiteSpace :=
    (List.takeWhile_append_dropWhile isStrWhiteSpace _).symm
  have hmid : cs.dropWhile isStrWhiteSpace
      = trimChars cs ++ ((cs.dropWhile isStrWhiteSpace).reverse.takeWhile isStrWhiteSpace).reverse := by
    have := congrArg List.reverse hsplit'
    rw [List.reverse_reverse, List.reverse_append] at this
    exact this
  refine ⟨cs.takeWhile isStrWhiteSpace,
    ((cs.dropWhile isStrWhiteSpace).reverse.takeWhile isStrWhiteSpace).reverse, ?_, ?_, ?_, ?_, ?_⟩
  · rw [List.append_assoc, ← hmid]
    exact hsplit
  · exact takeWhile_all _ _
  · intro c hc
    exact takeWhile_all _ _ c (List.mem_reverse.1 hc)
  · intro c hc
    apply dropWhile_head_not isStrWhiteSpace cs c
    rw [hmid]
    cases ht : trimChars cs with
    | nil => rw [ht] at hc; simp at hc
    | cons x xs =>
      rw [ht] at hc
      simpa using hc
  · intro c hc
    apply dropWhile_head_not isStrWhiteSpace (cs.dropWhile isStrWhiteSpace).reverse c
    have : (trimChars cs).getLast?
        = ((cs.dropWhile isStrWhiteSpace).reverse.dropWhile isStrWhiteSpace).head? := by
      unfold trimChars
      rw [List.getLast?_reverse]
    rw [← this]
    exact hc

/-- The white-space characters, by code point. -/
theorem isStrWhiteSpace_iff (c : Char) :
    isStrWhiteSpace c = true ↔
      c.toNat ∈ [9, 10, 11, 12, 13, 32, 160, 5760, 8192, 8193, 8194, 8195, 8196, 8197, 8198,
        8199, 8200, 8201, 8202, 8232, 8233, 8239, 8287, 12288, 65279] := by
  simp only [isStrWhiteSpace, Bool.or_eq_true, Bool.and_eq_true, decide_eq_true_eq,
    List.mem_cons, List.mem_singleton, List.not_mem_nil, or_false]
  omega

/-- C10: the region of a loaded row is the row's own trimmed region when that is
not empty; otherwise it is the region the reference map gives for the row's
trimmed country when the map has that country; otherwise it is `"World"`.  It is
never the empty string.  The reference map gives a country the trimmed region
(or `"World"` when that is empty) of the last row of the reference file with
that trimmed country, and has no entry for a country of no reference row.
Trimming removes the white space at both ends and nothing else.  Finland without
a region inherits `Western Europe` from the reference rows, a region given in
the file is kept trimmed, and a country unknown to the reference rows gets
`World`. -/
theorem loadRow_region (rows2015 : List CsvRow) (d : CsvRow) :
    (jsTrim (pickFlex d ["Region"]) ≠ "" →
      (loadRow (getRegionMap2015 rows2015) d).region = jsTrim (pickFlex d ["Region"])) ∧
    (jsTrim (pickFlex d ["Region"]) = "" →
      ∀ g, objGet (getRegionMap2015 rows2015)
          (jsTrim (pickFlex d ["Country or region", "Country name", "Country"])) = some g →
        (loadRow (getRegionMap2015 rows2015) d).region = g) ∧
    (jsTrim (pickFlex d ["Region"]) = "" →
      objGet (getRegionMap2015 rows2015)
          (jsTrim (pickFlex d ["Country or region", "Country name", "Country"])) = none →
        (loadRow (getRegionMap2015 rows2015) d).region = "World") ∧
    (loadRow (getRegionMap2015 rows2015) d).region ≠ "" ∧
    (∀ pre r post, rows2015 = pre ++ r :: post →
      (∀ r' ∈ post, jsTrim (pickFlex r' ["Country name", "Country"])
        ≠ jsTrim (pickFlex r ["Country name", "Country"])) →
      objGet (getRegionMap2015 rows2015) (jsTrim (pickFlex r ["Country name", "Country"]))
        = some (if jsTrim (pickFlex r ["Region"]) = "" then "World"
            else jsTrim (pickFlex r ["Region"]))) ∧
    (∀ c, (∀ r ∈ rows2015, jsTrim (pickFlex r ["Country name", "Country"]) ≠ c) →
      objGet (getRegionMap2015 rows2015) c = none) ∧
    (∀ s : String, ∃ l r : List Char, s.data = l ++ (jsTrim s).data ++ r ∧
      (∀ c ∈ l, isStrWhiteSpace c = true) ∧ (∀ c ∈ r, isStrWhiteSpace c = true) ∧
      (∀ c, (jsTrim s).data.head? = some c → isStrWhiteSpace c = false) ∧
      (∀ c, (jsTrim s).data.getLast? = some c → isStrWhiteSpace c = false)) ∧
    (∀ c : Char, isStrWhiteSpace c = true ↔
      c.toNat ∈ [9, 10, 11, 12, 13, 32, 160, 5760, 8192, 8193, 8194, 8195, 8196, 8197, 8198,
        8199, 8200, 8201, 8202, 8232, 8233, 8239, 8287, 12288, 65279]) ∧
    ((loadRow (getRegionMap2015 [[("Country", "Finland"), ("Region", "Western Europe")]])
        [("Country or region", "Finland"), ("Score", "7.769")]).region = "Western Europe" ∧
      (loadRow (getRegionMap2015 [[("Country", "Finland"), ("Region", "Western Europe")]])
        [("Country", "Finland"), ("Region", " Nordic "), ("Score", "7.769")]).region
          = "Nordic" ∧
      (loadRow (getRegionMap2015 [[("Country", "Finland"), ("Region", "Western Europe")]])
        [("Country or region", "Atlantis"), ("Score", "1")]).region = "World") := by
  have hreg : (loadRow (getRegionMap2015 rows2015) d).region
      = regionOf (getRegionMap2015 rows2015)
          (jsTrim (pickFlex d ["Country or region", "Country name", "Country"]))
          (jsTrim (pickFlex d ["Region"])) := by
    simp only [loadRow, strOr_empty]
    rfl
  rw [hreg]
  have h1 : jsTrim (pickFlex d ["Region"]) ≠ "" →
      regionOf (getRegionMap2015 rows2015)
        (jsTrim (pickFlex d ["Country or region", "Country name", "Country"]))
        (jsTrim (pickFlex d ["Region"])) = jsTrim (pickFlex d ["Region"]) := by
    intro h
    simp [regionOf, optOr, h]
  have h2 : jsTrim (pickFlex d ["Region"]) = "" →
      ∀ g, objGet (getRegionMap2015 rows2015)
          (jsTrim (pickFlex d ["Country or region", "Country name", "Country"])) = some g →
        regionOf (getRegionMap2015 rows2015)
          (jsTrim (pickFlex d ["Country or region", "Country name", "Country"]))
          (jsTrim (pickFlex d ["Region"])) = g := by
    intro h g hg
    have hne := getRegionMap2015_ne rows2015 _ g hg
    simp [regionOf, optOr, h, hg, hne]
  have h3 : jsTrim (pickFlex d ["Region"]) = "" →
      objGet (getRegionMap2015 rows2015)
          (jsTrim (pickFlex d ["Country or region", "Country name", "Country"])) = none →
        regionOf (getRegionMap2015 rows2015)
          (jsTrim (pickFlex d ["Country or region", "Country name", "Country"]))
          (jsTrim (pickFlex d ["Region"])) = "World" := by
    intro h hg
    simp [regionOf, optOr, h, hg]
  refine ⟨h1, h2, h3, ?_, ?_, getRegionMap2015_miss rows2015, ?_, isStrWhiteSpace_iff,
    by decide, by decide, by decide⟩
  · by_cases h : jsTrim (pickFlex d ["Region"]) = ""
    · cases hg : objGet (getRegionMap2015 rows2015)
          (jsTrim (pickFlex d ["Country or region", "Country name", "Country"])) with
      | none =>
        rw [h3 h hg]
        decide
      | some g =>
        rw [h2 h g hg]
        exact getRegionMap2015_ne rows2015 _ g hg
    · rw [h1 h]
      exact h
  · intro pre r post hrows hpost
    rw [hrows]
    exact getRegionMap2015_hit pre r post hpost
  · intro s
    exact trimChars_spec s.data

/-- No row returned by the loader has an empty region. -/
theorem loadHappinessYear_region_ne (rows2015 rowsYear : List CsvRow) :
    ∀ r ∈ loadHappinessYear rows2015 rowsYear, r.region ≠ "" := by
  intro r hr
  unfold loadHappinessYear at hr
  rw [List.mem_map] at hr
  obtain ⟨d, _, hd⟩ := hr
  rw [← hd]
  have hreg : (loadRow (getRegionMap2015 rows2015) d).region
      = regionOf (getRegionMap2015 rows2015) (jsTrim (pickFlex d COLS.country))
          (jsTrim (pickFlex d COLS.region)) := by
    simp only [loadRow, strOr_empty]
  rw [hreg]
  by_cases h : jsTrim (pickFlex d COLS.region) = ""
  · cases hg : objGet (getRegionMap2015 rows2015) (jsTrim (pickFlex d COLS.country)) with
    | none => simp [regionOf, optOr, h, hg]
    | some g =>
      have hne := getRegionMap2015_ne rows2015 _ g hg
      simp [regionOf, optOr, h, hg, hne]
  · simp [regionOf, optOr, h]

end Happiness
